import Mathlib

/-!
Verification of the `dimod::AdjVectorBQM` adjacency-vector BQM container.

Shallow embedding of `src/dimod/include/dimod/adjvectorbqm.h`.

The C++ class is `AdjVectorBQM<V, B>`: a vector `adj` where `adj[v]` is a pair
`(neighborhood of v, linear bias of v)` and each neighborhood is a vector of
`(neighbor index, quadratic bias)` pairs kept sorted by neighbor index.
We model variable indices `V` as `Nat` and the bias type `B` as `Int`
(an exact numeric type; no claim here depends on floating-point rounding).
`std::vector` becomes `List`; `std::lower_bound` with the comparator
`utils::comp_v` (which orders entries strictly by their neighbor index,
ignoring the bias) becomes the index-returning scan `lbIdx`, which agrees
with binary search on the partitioned (sorted) sequences the container
maintains.
-/

set_option maxRecDepth 4000
set_option linter.unusedVariables false

namespace Dimod

/-- The bias type `B` of the C++ template, modelled as `Int`. -/
abbrev Bias := Int

/-- One neighborhood entry: `std::pair<V, B>` (neighbor index, quadratic bias). -/
abbrev Entry := Nat × Bias

/-- A neighborhood: `std::vector<std::pair<V, B>>`. -/
abbrev Neighborhood := List Entry

/-- The whole container: the member
`std::vector<std::pair<std::vector<std::pair<V, B>>, B>> adj`. -/
abbrev AdjVectorBQM := List (Neighborhood × Bias)

/-- Replace the element at index `i` by `f` of it (out-of-range: no change).
Used to model in-place mutation of one `adj` slot. -/
def modifyAt {α : Type} (l : List α) (i : Nat) (f : α → α) : List α :=
  match l, i with
  | [], _ => []
  | x :: xs, 0 => f x :: xs
  | x :: xs, n + 1 => x :: modifyAt xs n f

/-- Models `std::vector::insert`/`emplace` at position `i` (positions past the
end append; the source only ever inserts at a `lower_bound` position, which
is at most the size). -/
def insertAt {α : Type} (l : List α) (i : Nat) (a : α) : List α :=
  match l, i with
  | l, 0 => a :: l
  | [], _ + 1 => [a]
  | x :: xs, n + 1 => x :: insertAt xs n a

/-- Models `std::vector::erase` at position `i` (out-of-range: no change; the
source only erases positions that hold the searched-for entry). -/
def eraseAt {α : Type} (l : List α) (i : Nat) : List α :=
  match l, i with
  | [], _ => []
  | _ :: xs, 0 => xs
  | x :: xs, n + 1 => x :: eraseAt xs n

/-- Index computed by `std::lower_bound(span.first, span.second, v, utils::comp_v)`:
the first position at which the neighbor index of the entry is not less than
`v`.  On the sorted neighborhoods the container maintains, this linear
characterization is exactly what binary search returns. -/
def lbIdx (nbr : Neighborhood) (v : Nat) : Nat :=
  match nbr with
  | [] => 0
  | e :: rest => if e.1 < v then lbIdx rest v + 1 else 0

/-- Models `neighborhood(u)`: the span over `adj[u].first` (as the list itself). -/
def neighborhood (bqm : AdjVectorBQM) (u : Nat) : Neighborhood :=
  (bqm.getD u ([], 0)).1

/-- Models `num_variables()`: `adj.size()`. -/
def num_variables (bqm : AdjVectorBQM) : Nat := bqm.length

/-- Models `get_linear(v)`: `adj[v].second`. -/
def get_linear (bqm : AdjVectorBQM) (v : Nat) : Bias := (bqm.getD v ([], 0)).2

/-- Models `set_linear(v, b)`: `adj[v].second = b`. -/
def set_linear (bqm : AdjVectorBQM) (v : Nat) (b : Bias) : AdjVectorBQM :=
  modifyAt bqm v (fun p => (p.1, b))

/-- Models `degree(v)`: `adj[v].first.size()`. -/
def degree (bqm : AdjVectorBQM) (v : Nat) : Nat := (neighborhood bqm v).length

/-- Models `add_variable()`: `adj.resize(adj.size()+1)` (the new slot is
value-initialized: empty neighborhood, zero bias), returning `adj.size()-1`. -/
def add_variable (bqm : AdjVectorBQM) : AdjVectorBQM × Nat :=
  (bqm ++ [([], 0)], bqm.length)

/-- Models `num_interactions()`: sum of all neighborhood sizes, divided by two
(integer division, as `size_type` arithmetic). -/
def num_interactions (bqm : AdjVectorBQM) : Nat :=
  (bqm.foldl (fun c p => c + p.1.length) 0) / 2

/-- The element `*low` found by `lower_bound` (none when `low == span.second`). -/
def nbLookup (nbr : Neighborhood) (w : Nat) : Option Entry := nbr[lbIdx nbr w]?

/-- The test `!(low == span.second || low->first != v)` used by
`get_quadratic`, `set_quadratic` and `remove_interaction`. -/
def nbFound (nbr : Neighborhood) (w : Nat) : Bool :=
  match nbLookup nbr w with
  | some e => e.1 == w
  | none => false

/-- The body of `get_quadratic` acting on one neighborhood: inspect the
`lower_bound` position and return `(bias, found)`. -/
def gqCore (nbr : Neighborhood) (v : Nat) : Bias × Bool :=
  match nbLookup nbr v with
  | some e => if e.1 = v then (e.2, true) else ((0 : Bias), false)
  | none => ((0 : Bias), false)

/-- Models `get_quadratic(u, v)`: binary-search the neighborhood of `u` for
`v`; return `(bias, found)`, with `(0, false)` when no edge exists. -/
def get_quadratic (bqm : AdjVectorBQM) (u v : Nat) : Bias × Bool :=
  gqCore (neighborhood bqm u) v

/-- One side of `set_quadratic`: at the `lower_bound` position, either
overwrite the bias (`low->second = b`) when `ex` says the entry exists, or
`emplace(low, w, b)` when it does not. -/
def nbUpdate (nbr : Neighborhood) (w : Nat) (b : Bias) (ex : Bool) : Neighborhood :=
  if ex then
    match nbLookup nbr w with
    | some e => nbr.set (lbIdx nbr w) (e.1, b)
    | none => nbr
  else insertAt nbr (lbIdx nbr w) (w, b)

/-- Models `set_quadratic(u, v, b)`: decide existence from the neighborhood of
`u`, apply the overwrite-or-insert to the `u` side, then (re-searching the
`v` side but reusing the same existence flag, as the source does) to the `v`
side; always return `true`. -/
def set_quadratic (bqm : AdjVectorBQM) (u v : Nat) (b : Bias) : AdjVectorBQM × Bool :=
  let ex := nbFound (neighborhood bqm u) v
  let adj1 := modifyAt bqm u (fun p => (nbUpdate p.1 v b ex, p.2))
  let adj2 := modifyAt adj1 v (fun p => (nbUpdate p.1 u b ex, p.2))
  (adj2, true)

/-- Erase the entry at the `lower_bound` position for `w`. -/
def nbEraseLb (nbr : Neighborhood) (w : Nat) : Neighborhood := eraseAt nbr (lbIdx nbr w)

/-- Models `remove_interaction(u, v)`: if `v` is found in the neighborhood of
`u`, erase both copies and return `true`; otherwise return `false` with no
mutation. -/
def remove_interaction (bqm : AdjVectorBQM) (u v : Nat) : AdjVectorBQM × Bool :=
  if nbFound (neighborhood bqm u) v then
    let adj1 := modifyAt bqm u (fun p => (nbEraseLb p.1 v, p.2))
    let adj2 := modifyAt adj1 v (fun p => (nbEraseLb p.1 u, p.2))
    (adj2, true)
  else (bqm, false)

/-- Models `pop_variable()`: let `v` be the last index; for each entry of the
neighborhood of `v` erase the matching entry from the neighborhood of that
neighbor (the C++ loop reads `adj[v].first` while mutating only other slots,
which on self-loop-free states is the fold below over the initial list),
then `adj.pop_back()`; return the new `adj.size()`. -/
def pop_variable (bqm : AdjVectorBQM) : AdjVectorBQM × Nat :=
  let v := bqm.length - 1
  let adj1 := (neighborhood bqm v).foldl
    (fun adj e => modifyAt adj e.1 (fun p => (nbEraseLb p.1 v, p.2))) bqm
  (adj1.dropLast, adj1.dropLast.length)

/-- The templated copy constructor applied to another `AdjVectorBQM`:
resize to `num_variables`, copy each linear bias via `set_linear` and insert
each full neighborhood span. -/
def copyOf (src : AdjVectorBQM) : AdjVectorBQM :=
  (List.range (num_variables src)).map (fun v => (neighborhood src v, get_linear src v))

/-- The local `qbias` of the inner loop of the dense constructor:
`dense[u*num_variables+v] + dense[v*num_variables+u]`. -/
def qd (d : Nat → Bias) (n u v : Nat) : Bias := d (u * n + v) + d (v * n + u)

/-- One iteration of the double loop of the dense constructor at `(u, v)`,
`u < v`: if `qbias` is nonzero, `emplace_back` `(v, qbias)` on the
neighborhood of `u` and `(u, qbias)` on that of `v`. -/
def denseStep (d : Nat → Bias) (n : Nat) (adj : AdjVectorBQM) (u v : Nat) : AdjVectorBQM :=
  if qd d n u v ≠ 0 then
    modifyAt (modifyAt adj u (fun p => (p.1 ++ [(v, qd d n u v)], p.2))) v
      (fun p => (p.1 ++ [(u, qd d n u v)], p.2))
  else adj

/-- The dense-array constructor: resize to `n` (linear biases from the
diagonal `dense[v*(num_variables+1)]` unless `ignore_diagonal`), then for every
`u` and every `v` in `u+1 .. n-1` run `denseStep`. -/
def fromDense (d : Nat → Bias) (n : Nat) (ignore_diagonal : Bool) : AdjVectorBQM :=
  (List.range n).foldl
    (fun adj u =>
      (List.range' (u + 1) (n - (u + 1))).foldl (fun adj2 v => denseStep d n adj2 u v) adj)
    ((List.range n).map (fun v => ([], if ignore_diagonal then 0 else d (v * (n + 1)))))

/-- Entries ordered strictly by neighbor index (the order `utils::comp_v` induces). -/
def keyLt (a b : Entry) : Prop := a.1 < b.1

/-- A neighborhood is sorted: strictly increasing neighbor indices. -/
def SortedNb (nbr : Neighborhood) : Prop := List.Pairwise keyLt nbr

/-- The neighbor indices of a neighborhood. -/
def keys (nbr : Neighborhood) : List Nat := nbr.map Prod.fst

/-- The data-structure invariant of the container (spec §3): sorted
neighborhoods, in-range neighbor indices, no self-loops, and symmetry of the
doubly-stored edges. -/
structure Valid (bqm : AdjVectorBQM) : Prop where
  sorted : ∀ u, SortedNb (neighborhood bqm u)
  bounded : ∀ u, ∀ e ∈ neighborhood bqm u, e.1 < num_variables bqm
  noSelf : ∀ u, ∀ e ∈ neighborhood bqm u, e.1 ≠ u
  symm : ∀ u, ∀ e ∈ neighborhood bqm u, (u, e.2) ∈ neighborhood bqm e.1

/-- The public mutating operations. -/
inductive Op where
  | addVar : Op
  | popVar : Op
  | setLin : Nat → Bias → Op
  | setQuad : Nat → Nat → Bias → Op
  | removeInt : Nat → Nat → Op

/-- Apply one public operation (keeping only the new state). -/
def applyOp (bqm : AdjVectorBQM) : Op → AdjVectorBQM
  | Op.addVar => (add_variable bqm).1
  | Op.popVar => (pop_variable bqm).1
  | Op.setLin v b => set_linear bqm v b
  | Op.setQuad u v b => (set_quadratic bqm u v b).1
  | Op.removeInt u v => (remove_interaction bqm u v).1

/-- The caller contracts the source asserts for each operation (spec §7):
index bounds everywhere, `u ≠ v` for `set_quadratic`, non-emptiness for
`pop_variable`. -/
def OpValid (bqm : AdjVectorBQM) : Op → Prop
  | Op.addVar => True
  | Op.popVar => 0 < num_variables bqm
  | Op.setLin v _ => v < num_variables bqm
  | Op.setQuad u v _ => u < num_variables bqm ∧ v < num_variables bqm ∧ u ≠ v
  | Op.removeInt u v => u < num_variables bqm ∧ v < num_variables bqm

/-- States reachable from any constructor (default, dense, copy) by public
operations whose caller contracts hold. -/
inductive Reachable : AdjVectorBQM → Prop where
  | default_ctor : Reachable []
  | dense_ctor (d : Nat → Bias) (n : Nat) (ig : Bool) : Reachable (fromDense d n ig)
  | copy_ctor {b : AdjVectorBQM} : Reachable b → Reachable (copyOf b)
  | step {b : AdjVectorBQM} (op : Op) : Reachable b → OpValid b op → Reachable (applyOp b op)

/-! ## Structural lemmas about the list primitives -/

theorem modifyAt_length {α : Type} (l : List α) (i : Nat) (f : α → α) :
    (modifyAt l i f).length = l.length := by
  induction l generalizing i with
  | nil => rfl
  | cons x xs ih =>
    cases i with
    | zero => rfl
    | succ n => simpa [modifyAt] using ih n

theorem getD_modifyAt_ne {α : Type} (l : List α) (i j : Nat) (f : α → α) (d : α)
    (h : j ≠ i) : (modifyAt l i f).getD j d = l.getD j d := by
  induction l generalizing i j with
  | nil => rfl
  | cons x xs ih =>
    cases i with
    | zero =>
      cases j with
      | zero => exact absurd rfl h
      | succ m => simp [modifyAt]
    | succ n =>
      cases j with
      | zero => simp [modifyAt]
      | succ m =>
        simp only [modifyAt, List.getD_cons_succ]
        exact ih n m (fun hc => h (by simp [hc]))

theorem getD_modifyAt_eq {α : Type} (l : List α) (i : Nat) (f : α → α) (d : α)
    (h : i < l.length) : (modifyAt l i f).getD i d = f (l.getD i d) := by
  induction l generalizing i with
  | nil => simp at h
  | cons x xs ih =>
    cases i with
    | zero => rfl
    | succ n =>
      simp only [modifyAt, List.getD_cons_succ]
      exact ih n (by simpa using h)

theorem getD_out {α : Type} (l : List α) (j : Nat) (d : α) (h : l.length ≤ j) :
    l.getD j d = d := by
  induction l generalizing j with
  | nil => rfl
  | cons x xs ih =>
    cases j with
    | zero => simp at h
    | succ m => simpa using ih m (by simpa using h)

theorem getElem?_append_len {α : Type} (l1 l2 : List α) :
    (l1 ++ l2)[l1.length]? = l2[0]? := by
  induction l1 with
  | nil => rfl
  | cons x xs ih => simpa using ih

theorem set_append_len {α : Type} (l1 : List α) (x y : α) (l2 : List α) :
    (l1 ++ x :: l2).set l1.length y = l1 ++ y :: l2 := by
  induction l1 with
  | nil => rfl
  | cons z zs ih => simp [ih]

theorem insertAt_append_len {α : Type} (l1 l2 : List α) (a : α) :
    insertAt (l1 ++ l2) l1.length a = l1 ++ a :: l2 := by
  induction l1 with
  | nil => cases l2 <;> rfl
  | cons z zs ih => simpa [insertAt] using ih

theorem eraseAt_append_len {α : Type} (l1 : List α) (x : α) (l2 : List α) :
    eraseAt (l1 ++ x :: l2) l1.length = l1 ++ l2 := by
  induction l1 with
  | nil => rfl
  | cons z zs ih => simpa [eraseAt] using ih

theorem insertAt_length {α : Type} (l : List α) (i : Nat) (a : α) (h : i ≤ l.length) :
    (insertAt l i a).length = l.length + 1 := by
  induction l generalizing i with
  | nil => cases i <;> rfl
  | cons x xs ih =>
    cases i with
    | zero => rfl
    | succ n => simpa [insertAt] using ih n (by simpa using h)

/-! ## Keys and sortedness -/

theorem mem_keys_iff (nbr : Neighborhood) (v : Nat) :
    v ∈ keys nbr ↔ ∃ b, (v, b) ∈ nbr := by
  constructor
  · intro h
    obtain ⟨e, he, hev⟩ := List.mem_map.mp h
    exact ⟨e.2, by simpa [← hev] using he⟩
  · rintro ⟨b, hb⟩
    exact List.mem_map.mpr ⟨(v, b), hb, rfl⟩

theorem not_mem_keys (nbr : Neighborhood) (v : Nat) (h : ∀ e ∈ nbr, e.1 ≠ v) :
    v ∉ keys nbr := by
  intro hc
  obtain ⟨b, hb⟩ := (mem_keys_iff nbr v).mp hc
  exact h (v, b) hb rfl

/-- Decomposition of a sorted neighborhood at the `lower_bound` position of a
present key `v`: everything before is smaller, everything after is larger, and
`lbIdx` points exactly at the entry holding `v`. -/
theorem sorted_mem_decomp (nbr : Neighborhood) (v : Nat) (b0 : Bias)
    (hs : SortedNb nbr) (hm : (v, b0) ∈ nbr) :
    ∃ l1 l2, nbr = l1 ++ (v, b0) :: l2 ∧ lbIdx nbr v = l1.length ∧
      (∀ e ∈ l1, e.1 < v) ∧ (∀ e ∈ l2, v < e.1) := by
  induction nbr with
  | nil => cases hm
  | cons e rest ih =>
    rw [SortedNb, List.pairwise_cons] at hs
    obtain ⟨hhead, htail⟩ := hs
    rcases List.mem_cons.mp hm with he | hm'
    · refine ⟨[], rest, by simp [← he], ?_, by simp, ?_⟩
      · have : ¬ e.1 < v := by rw [← he]; exact lt_irrefl v
        simp [lbIdx, this]
      · intro x hx
        have := hhead x hx
        rw [← he] at this
        exact this
    · have hlt : e.1 < v := hhead (v, b0) hm'
      obtain ⟨l1, l2, hdec, hlb, h1, h2⟩ := ih htail hm'
      refine ⟨e :: l1, l2, by simp [hdec], ?_, ?_, h2⟩
      · simp [lbIdx, hlt, hlb]
      · intro x hx
        rcases List.mem_cons.mp hx with rfl | hx'
        · exact hlt
        · exact h1 x hx'

/-- Decomposition of a sorted neighborhood at the `lower_bound` position of an
absent key `v`: the list splits into the entries below `v` and those above. -/
theorem sorted_not_mem_decomp (nbr : Neighborhood) (v : Nat)
    (hs : SortedNb nbr) (hm : v ∉ keys nbr) :
    ∃ l1 l2, nbr = l1 ++ l2 ∧ lbIdx nbr v = l1.length ∧
      (∀ e ∈ l1, e.1 < v) ∧ (∀ e ∈ l2, v < e.1) := by
  induction nbr with
  | nil => exact ⟨[], [], rfl, rfl, by simp, by simp⟩
  | cons e rest ih =>
    rw [SortedNb, List.pairwise_cons] at hs
    obtain ⟨hhead, htail⟩ := hs
    have hne : e.1 ≠ v := by
      intro hc
      exact hm (by simp [keys, hc])
    have hm' : v ∉ keys rest := by
      intro hc
      exact hm (by simp [keys] at hc ⊢; exact Or.inr hc)
    by_cases hlt : e.1 < v
    · obtain ⟨l1, l2, hdec, hlb, h1, h2⟩ := ih htail hm'
      refine ⟨e :: l1, l2, by simp [hdec], by simp [lbIdx, hlt, hlb], ?_, h2⟩
      intro x hx
      rcases List.mem_cons.mp hx with rfl | hx'
      · exact hlt
      · exact h1 x hx'
    · have hgt : v < e.1 := lt_of_le_of_ne (Nat.le_of_not_lt hlt) (Ne.symm hne)
      refine ⟨[], e :: rest, rfl, by simp [lbIdx, hlt], by simp, ?_⟩
      intro x hx
      rcases List.mem_cons.mp hx with rfl | hx'
      · exact hgt
      · exact lt_trans hgt (hhead x hx')

theorem nbLookup_mem (nbr : Neighborhood) (v : Nat) (b0 : Bias)
    (hs : SortedNb nbr) (hm : (v, b0) ∈ nbr) : nbLookup nbr v = some (v, b0) := by
  obtain ⟨l1, l2, hdec, hlb, -, -⟩ := sorted_mem_decomp nbr v b0 hs hm
  subst hdec
  rw [nbLookup, hlb, getElem?_append_len]
  simp

theorem nbFound_of_mem (nbr : Neighborhood) (v : Nat) (b0 : Bias)
    (hs : SortedNb nbr) (hm : (v, b0) ∈ nbr) : nbFound nbr v = true := by
  rw [nbFound, nbLookup_mem nbr v b0 hs hm]
  simp

theorem nbFound_of_not_mem (nbr : Neighborhood) (v : Nat)
    (hs : SortedNb nbr) (hm : v ∉ keys nbr) : nbFound nbr v = false := by
  obtain ⟨l1, l2, hdec, hlb, -, h2⟩ := sorted_not_mem_decomp nbr v hs hm
  subst hdec
  rw [nbFound, nbLookup, hlb, getElem?_append_len]
  cases l2 with
  | nil => rfl
  | cons x xs =>
    have hne : x.1 ≠ v := ne_of_gt (h2 x (List.mem_cons_self x xs))
    simp [hne]

theorem gqCore_mem (nbr : Neighborhood) (v : Nat) (b0 : Bias)
    (hs : SortedNb nbr) (hm : (v, b0) ∈ nbr) : gqCore nbr v = (b0, true) := by
  rw [gqCore, nbLookup_mem nbr v b0 hs hm]
  simp

theorem gqCore_not_mem (nbr : Neighborhood) (v : Nat)
    (hs : SortedNb nbr) (hm : v ∉ keys nbr) : gqCore nbr v = (0, false) := by
  obtain ⟨l1, l2, hdec, hlb, -, h2⟩ := sorted_not_mem_decomp nbr v hs hm
  subst hdec
  rw [gqCore, nbLookup, hlb, getElem?_append_len]
  cases l2 with
  | nil => rfl
  | cons x xs =>
    have hne : x.1 ≠ v := ne_of_gt (h2 x (List.mem_cons_self x xs))
    simp [hne]

theorem gqCore_congr (nbr1 nbr2 : Neighborhood) (v : Nat)
    (hs1 : SortedNb nbr1) (hs2 : SortedNb nbr2)
    (h : ∀ b, ((v, b) ∈ nbr1 ↔ (v, b) ∈ nbr2)) : gqCore nbr1 v = gqCore nbr2 v := by
  by_cases hk : v ∈ keys nbr1
  · obtain ⟨b, hb⟩ := (mem_keys_iff _ _).mp hk
    rw [gqCore_mem nbr1 v b hs1 hb, gqCore_mem nbr2 v b hs2 ((h b).mp hb)]
  · have hk2 : v ∉ keys nbr2 := by
      intro hc
      obtain ⟨b, hb⟩ := (mem_keys_iff _ _).mp hc
      exact hk ((mem_keys_iff _ _).mpr ⟨b, (h b).mpr hb⟩)
    rw [gqCore_not_mem nbr1 v hs1 hk, gqCore_not_mem nbr2 v hs2 hk2]

theorem sorted_split (l1 l2 : Neighborhood) (h : SortedNb (l1 ++ l2)) :
    SortedNb l1 ∧ SortedNb l2 ∧ ∀ a ∈ l1, ∀ c ∈ l2, keyLt a c := by
  rw [SortedNb, List.pairwise_append] at h
  exact h

theorem sorted_glue (l1 l2 : Neighborhood) (v : Nat) (b : Bias)
    (h1 : SortedNb l1) (h2 : SortedNb l2) (hcross : ∀ a ∈ l1, ∀ c ∈ l2, keyLt a c)
    (hlt : ∀ e ∈ l1, e.1 < v) (hgt : ∀ e ∈ l2, v < e.1) :
    SortedNb (l1 ++ (v, b) :: l2) := by
  rw [SortedNb, List.pairwise_append]
  refine ⟨h1, ?_, ?_⟩
  · rw [List.pairwise_cons]
    exact ⟨fun c hc => hgt c hc, h2⟩
  · intro a ha c hc
    rcases List.mem_cons.mp hc with rfl | hc'
    · exact hlt a ha
    · exact hcross a ha c hc'

/-- The overwrite branch of `set_quadratic` on one neighborhood: it replaces
the unique entry for `v`, keeps sortedness and the length, and character-
izes membership afterwards. -/
theorem nbUpdate_true_spec (nbr : Neighborhood) (v : Nat) (b b0 : Bias)
    (hs : SortedNb nbr) (hm : (v, b0) ∈ nbr) :
    SortedNb (nbUpdate nbr v b true) ∧
    (nbUpdate nbr v b true).length = nbr.length ∧
    ∀ e, e ∈ nbUpdate nbr v b true ↔ e = (v, b) ∨ (e ∈ nbr ∧ e.1 ≠ v) := by
  obtain ⟨l1, l2, hdec, hlb, hl1, hl2⟩ := sorted_mem_decomp nbr v b0 hs hm
  have hupd : nbUpdate nbr v b true = l1 ++ (v, b) :: l2 := by
    rw [nbUpdate, nbLookup_mem nbr v b0 hs hm]
    simp only
    rw [hlb]
    conv_lhs => rw [hdec]
    exact set_append_len l1 (v, b0) (v, b) l2
  rw [hupd]
  have hs' := hs
  rw [hdec] at hs'
  obtain ⟨s1, s2', cross⟩ := sorted_split l1 ((v, b0) :: l2) hs'
  rw [SortedNb, List.pairwise_cons] at s2'
  obtain ⟨-, s2⟩ := s2'
  refine ⟨?_, ?_, ?_⟩
  · exact sorted_glue l1 l2 v b s1 s2
      (fun a ha c hc => cross a ha c (List.mem_cons_of_mem _ hc)) hl1 hl2
  · rw [hdec]
    simp
  · intro e
    rw [hdec]
    simp only [List.mem_append, List.mem_cons]
    constructor
    · rintro (h1 | h2 | h3)
      · exact Or.inr ⟨Or.inl h1, ne_of_lt (hl1 e h1)⟩
      · exact Or.inl h2
      · exact Or.inr ⟨Or.inr (Or.inr h3), ne_of_gt (hl2 e h3)⟩
    · rintro (rfl | ⟨h1 | h2 | h3, hne⟩)
      · exact Or.inr (Or.inl rfl)
      · exact Or.inl h1
      · exact absurd (by rw [h2]) hne
      · exact Or.inr (Or.inr h3)

/-- The insert branch of `set_quadratic` on one neighborhood: it adds exactly
the entry `(v, b)` at the `lower_bound` position, keeping sortedness. -/
theorem nbUpdate_false_spec (nbr : Neighborhood) (v : Nat) (b : Bias)
    (hs : SortedNb nbr) (hm : v ∉ keys nbr) :
    SortedNb (nbUpdate nbr v b false) ∧
    (nbUpdate nbr v b false).length = nbr.length + 1 ∧
    ∀ e, e ∈ nbUpdate nbr v b false ↔ e = (v, b) ∨ e ∈ nbr := by
  obtain ⟨l1, l2, hdec, hlb, hl1, hl2⟩ := sorted_not_mem_decomp nbr v hs hm
  have hupd : nbUpdate nbr v b false = l1 ++ (v, b) :: l2 := by
    rw [nbUpdate]
    simp only [Bool.false_eq_true, if_false]
    rw [hlb]
    conv_lhs => rw [hdec]
    exact insertAt_append_len l1 l2 (v, b)
  rw [hupd]
  have hs' := hs
  rw [hdec] at hs'
  obtain ⟨s1, s2, cross⟩ := sorted_split l1 l2 hs'
  refine ⟨sorted_glue l1 l2 v b s1 s2 cross hl1 hl2, ?_, ?_⟩
  · rw [hdec]
    simp [Nat.add_assoc]
  · intro e
    rw [hdec]
    simp only [List.mem_append, List.mem_cons]
    tauto

/-- Erasing at the `lower_bound` position of a present key removes exactly
the unique entry for `v`, keeping sortedness of the rest. -/
theorem nbEraseLb_spec (nbr : Neighborhood) (v : Nat) (b0 : Bias)
    (hs : SortedNb nbr) (hm : (v, b0) ∈ nbr) :
    SortedNb (nbEraseLb nbr v) ∧
    (nbEraseLb nbr v).length + 1 = nbr.length ∧
    ∀ e, e ∈ nbEraseLb nbr v ↔ e ∈ nbr ∧ e.1 ≠ v := by
  obtain ⟨l1, l2, hdec, hlb, hl1, hl2⟩ := sorted_mem_decomp nbr v b0 hs hm
  have hupd : nbEraseLb nbr v = l1 ++ l2 := by
    rw [nbEraseLb, hlb]
    conv_lhs => rw [hdec]
    exact eraseAt_append_len l1 (v, b0) l2
  rw [hupd]
  have hs' := hs
  rw [hdec] at hs'
  obtain ⟨s1, s2', cross⟩ := sorted_split l1 ((v, b0) :: l2) hs'
  rw [SortedNb, List.pairwise_cons] at s2'
  obtain ⟨-, s2⟩ := s2'
  refine ⟨?_, ?_, ?_⟩
  · rw [SortedNb, List.pairwise_append]
    exact ⟨s1, s2, fun a ha c hc => cross a ha c (List.mem_cons_of_mem _ hc)⟩
  · rw [hdec]
    simp [Nat.add_assoc, Nat.add_comm 1 l2.length]
  · intro e
    rw [hdec]
    simp only [List.mem_append, List.mem_cons]
    constructor
    · rintro (h1 | h3)
      · exact ⟨Or.inl h1, ne_of_lt (hl1 e h1)⟩
      · exact ⟨Or.inr (Or.inr h3), ne_of_gt (hl2 e h3)⟩
    · rintro ⟨h1 | h2 | h3, hne⟩
      · exact Or.inl h1
      · exact absurd (by rw [h2]) hne
      · exact Or.inr h3

/-! ## State-level lemmas about the operations -/

theorem modifyAt_out {α : Type} (l : List α) (i : Nat) (f : α → α)
    (h : l.length ≤ i) : modifyAt l i f = l := by
  induction l generalizing i with
  | nil => rfl
  | cons x xs ih =>
    cases i with
    | zero => simp at h
    | succ n => simp [modifyAt, ih n (by simpa using h)]

theorem getD_modifyAt_fst (l : AdjVectorBQM) (i j : Nat) (g : Neighborhood × Bias → Bias) :
    ((modifyAt l i (fun p => (p.1, g p))).getD j (([], 0) : Neighborhood × Bias)).1
      = (l.getD j ([], 0)).1 := by
  by_cases h : j = i
  · subst h
    by_cases h2 : j < l.length
    · rw [getD_modifyAt_eq _ _ _ _ h2]
    · rw [modifyAt_out _ _ _ (Nat.le_of_not_lt h2)]
  · rw [getD_modifyAt_ne _ _ _ _ _ h]

theorem getD_modifyAt_snd (l : AdjVectorBQM) (i j : Nat) (f : Neighborhood × Bias → Neighborhood) :
    ((modifyAt l i (fun p => (f p, p.2))).getD j (([], 0) : Neighborhood × Bias)).2
      = (l.getD j ([], 0)).2 := by
  by_cases h : j = i
  · subst h
    by_cases h2 : j < l.length
    · rw [getD_modifyAt_eq _ _ _ _ h2]
    · rw [modifyAt_out _ _ _ (Nat.le_of_not_lt h2)]
  · rw [getD_modifyAt_ne _ _ _ _ _ h]

theorem nb_modifyAt_ne (l : AdjVectorBQM) (i j : Nat) (f : Neighborhood × Bias → Neighborhood × Bias)
    (h : j ≠ i) : neighborhood (modifyAt l i f) j = neighborhood l j := by
  rw [neighborhood, getD_modifyAt_ne _ _ _ _ _ h, neighborhood]

/-! ### `add_variable` -/

theorem getD_append_default {α : Type} (l : List α) (w : Nat) (d : α) :
    (l ++ [d]).getD w d = l.getD w d := by
  induction l generalizing w with
  | nil => cases w <;> simp
  | cons x xs ih =>
    cases w with
    | zero => rfl
    | succ n =>
      simp only [List.cons_append, List.getD_cons_succ]
      exact ih n

theorem getD_add_variable (bqm : AdjVectorBQM) (w : Nat) :
    ((add_variable bqm).1).getD w (([], 0) : Neighborhood × Bias) = bqm.getD w ([], 0) := by
  rw [add_variable]
  exact getD_append_default bqm w ([], 0)

theorem nb_add_variable (bqm : AdjVectorBQM) (w : Nat) :
    neighborhood (add_variable bqm).1 w = neighborhood bqm w := by
  rw [neighborhood, getD_add_variable, neighborhood]

theorem linear_add_variable (bqm : AdjVectorBQM) (w : Nat) :
    get_linear (add_variable bqm).1 w = get_linear bqm w := by
  rw [get_linear, getD_add_variable, get_linear]

theorem length_add_variable (bqm : AdjVectorBQM) :
    ((add_variable bqm).1).length = bqm.length + 1 := by
  rw [add_variable]
  simp

/-! ### `set_linear` -/

theorem nb_set_linear (bqm : AdjVectorBQM) (v : Nat) (b : Bias) (w : Nat) :
    neighborhood (set_linear bqm v b) w = neighborhood bqm w := by
  rw [neighborhood, set_linear, getD_modifyAt_fst, neighborhood]

theorem linear_set_linear_ne (bqm : AdjVectorBQM) (v : Nat) (b : Bias) (w : Nat)
    (h : w ≠ v) : get_linear (set_linear bqm v b) w = get_linear bqm w := by
  rw [get_linear, set_linear, getD_modifyAt_ne _ _ _ _ _ h, get_linear]

theorem linear_set_linear_eq (bqm : AdjVectorBQM) (v : Nat) (b : Bias)
    (h : v < bqm.length) : get_linear (set_linear bqm v b) v = b := by
  rw [get_linear, set_linear, getD_modifyAt_eq _ _ _ _ h]

theorem length_set_linear (bqm : AdjVectorBQM) (v : Nat) (b : Bias) :
    (set_linear bqm v b).length = bqm.length := by
  rw [set_linear, modifyAt_length]

/-! ### `set_quadratic` -/

theorem set_quadratic_snd (bqm : AdjVectorBQM) (u v : Nat) (b : Bias) :
    (set_quadratic bqm u v b).2 = true := rfl

theorem length_set_quadratic (bqm : AdjVectorBQM) (u v : Nat) (b : Bias) :
    ((set_quadratic bqm u v b).1).length = bqm.length := by
  rw [set_quadratic]
  simp only
  rw [modifyAt_length, modifyAt_length]

theorem linear_set_quadratic (bqm : AdjVectorBQM) (u v : Nat) (b : Bias) (w : Nat) :
    get_linear (set_quadratic bqm u v b).1 w = get_linear bqm w := by
  rw [set_quadratic]
  simp only
  rw [get_linear, getD_modifyAt_snd, getD_modifyAt_snd, get_linear]

theorem nb_set_quadratic_other (bqm : AdjVectorBQM) (u v : Nat) (b : Bias) (w : Nat)
    (hw1 : w ≠ u) (hw2 : w ≠ v) :
    neighborhood (set_quadratic bqm u v b).1 w = neighborhood bqm w := by
  rw [set_quadratic]
  simp only
  rw [nb_modifyAt_ne _ _ _ _ hw2, nb_modifyAt_ne _ _ _ _ hw1]

theorem nb_set_quadratic_u (bqm : AdjVectorBQM) (u v : Nat) (b : Bias)
    (hu : u < bqm.length) (huv : u ≠ v) :
    neighborhood (set_quadratic bqm u v b).1 u
      = nbUpdate (neighborhood bqm u) v b (nbFound (neighborhood bqm u) v) := by
  rw [set_quadratic]
  simp only
  rw [nb_modifyAt_ne _ _ _ _ huv, neighborhood, getD_modifyAt_eq _ _ _ _ hu]
  rfl

theorem nb_set_quadratic_v (bqm : AdjVectorBQM) (u v : Nat) (b : Bias)
    (hv : v < bqm.length) (huv : u ≠ v) :
    neighborhood (set_quadratic bqm u v b).1 v
      = nbUpdate (neighborhood bqm v) u b (nbFound (neighborhood bqm u) v) := by
  rw [set_quadratic]
  simp only
  rw [neighborhood, getD_modifyAt_eq _ _ _ _ (by rw [modifyAt_length]; exact hv)]
  simp only
  rw [getD_modifyAt_ne _ _ _ _ _ (Ne.symm huv)]
  rfl

/-! ### `remove_interaction` -/

theorem remove_interaction_not_found (bqm : AdjVectorBQM) (u v : Nat)
    (h : nbFound (neighborhood bqm u) v = false) :
    remove_interaction bqm u v = (bqm, false) := by
  rw [remove_interaction, h]
  simp

theorem remove_interaction_found (bqm : AdjVectorBQM) (u v : Nat)
    (h : nbFound (neighborhood bqm u) v = true) :
    remove_interaction bqm u v =
      (modifyAt (modifyAt bqm u (fun p => (nbEraseLb p.1 v, p.2))) v
        (fun p => (nbEraseLb p.1 u, p.2)), true) := by
  rw [remove_interaction, h]
  simp

theorem length_remove_interaction (bqm : AdjVectorBQM) (u v : Nat) :
    ((remove_interaction bqm u v).1).length = bqm.length := by
  rw [remove_interaction]
  by_cases h : nbFound (neighborhood bqm u) v <;> simp [h, modifyAt_length]

theorem linear_remove_interaction (bqm : AdjVectorBQM) (u v : Nat) (w : Nat) :
    get_linear (remove_interaction bqm u v).1 w = get_linear bqm w := by
  rw [remove_interaction]
  by_cases h : nbFound (neighborhood bqm u) v
  · simp only [h, if_true]
    rw [get_linear, getD_modifyAt_snd, getD_modifyAt_snd, get_linear]
  · simp [h]

theorem nb_remove_interaction_other (bqm : AdjVectorBQM) (u v : Nat) (w : Nat)
    (hw1 : w ≠ u) (hw2 : w ≠ v) :
    neighborhood (remove_interaction bqm u v).1 w = neighborhood bqm w := by
  rw [remove_interaction]
  by_cases h : nbFound (neighborhood bqm u) v
  · simp only [h, if_true]
    rw [nb_modifyAt_ne _ _ _ _ hw2, nb_modifyAt_ne _ _ _ _ hw1]
  · simp [h]

theorem nb_remove_interaction_found_u (bqm : AdjVectorBQM) (u v : Nat)
    (h : nbFound (neighborhood bqm u) v = true) (hu : u < bqm.length) (huv : u ≠ v) :
    neighborhood (remove_interaction bqm u v).1 u = nbEraseLb (neighborhood bqm u) v := by
  rw [remove_interaction_found _ _ _ h]
  simp only
  rw [nb_modifyAt_ne _ _ _ _ huv, neighborhood, getD_modifyAt_eq _ _ _ _ hu]
  rfl

theorem nb_remove_interaction_found_v (bqm : AdjVectorBQM) (u v : Nat)
    (h : nbFound (neighborhood bqm u) v = true) (hv : v < bqm.length) (huv : u ≠ v) :
    neighborhood (remove_interaction bqm u v).1 v = nbEraseLb (neighborhood bqm v) u := by
  rw [remove_interaction_found _ _ _ h]
  simp only
  rw [neighborhood, getD_modifyAt_eq _ _ _ _ (by rw [modifyAt_length]; exact hv)]
  simp only
  rw [getD_modifyAt_ne _ _ _ _ _ (Ne.symm huv)]
  rfl

/-! ### `pop_variable`, `copyOf`, `num_interactions` -/

theorem sorted_keys_nodup (nbr : Neighborhood) (hs : SortedNb nbr) : (keys nbr).Nodup := by
  rw [keys, List.Nodup, List.pairwise_map]
  exact hs.imp (fun h => ne_of_lt h)

theorem nb_out_of_range (adj : AdjVectorBQM) (w : Nat) (h : adj.length ≤ w) :
    neighborhood adj w = [] := by
  rw [neighborhood, getD_out _ _ _ h]

theorem nb_modify_erase (adj : AdjVectorBQM) (i v w : Nat) :
    neighborhood (modifyAt adj i (fun p => (nbEraseLb p.1 v, p.2))) w
      = if w = i then nbEraseLb (neighborhood adj w) v else neighborhood adj w := by
  by_cases h : w = i
  · subst h
    rw [if_pos rfl]
    by_cases h2 : w < adj.length
    · rw [neighborhood, getD_modifyAt_eq _ _ _ _ h2]
      rfl
    · rw [modifyAt_out _ _ _ (Nat.le_of_not_lt h2), nb_out_of_range _ _ (Nat.le_of_not_lt h2)]
      rfl
  · rw [if_neg h, nb_modifyAt_ne _ _ _ _ h]

theorem nb_fold_erase (v : Nat) (L : List Entry) (adj : AdjVectorBQM) (w : Nat)
    (hnd : (keys L).Nodup) :
    neighborhood (L.foldl (fun a e => modifyAt a e.1 (fun p => (nbEraseLb p.1 v, p.2))) adj) w
      = if w ∈ keys L then nbEraseLb (neighborhood adj w) v else neighborhood adj w := by
  induction L generalizing adj with
  | nil => simp [keys]
  | cons e rest ih =>
    rw [keys, List.map_cons, List.nodup_cons] at hnd
    simp only [List.foldl_cons]
    rw [ih _ hnd.2]
    have hkeys : keys (e :: rest) = e.1 :: keys rest := by rw [keys, List.map_cons, keys]
    by_cases h1 : w = e.1
    · subst h1
      have hnr : e.1 ∉ keys rest := hnd.1
      rw [if_neg hnr, nb_modify_erase, if_pos rfl, hkeys, if_pos (List.mem_cons_self _ _)]
    · rw [nb_modify_erase, if_neg h1, hkeys]
      by_cases h2 : w ∈ keys rest
      · rw [if_pos h2, if_pos (List.mem_cons_of_mem _ h2)]
      · rw [if_neg h2, if_neg (by simp [h1, h2])]

theorem linear_fold_erase (v : Nat) (L : List Entry) (adj : AdjVectorBQM) (w : Nat) :
    get_linear (L.foldl (fun a e => modifyAt a e.1 (fun p => (nbEraseLb p.1 v, p.2))) adj) w
      = get_linear adj w := by
  induction L generalizing adj with
  | nil => rfl
  | cons e rest ih =>
    simp only [List.foldl_cons]
    rw [ih, get_linear, getD_modifyAt_snd, get_linear]

theorem length_fold_erase (v : Nat) (L : List Entry) (adj : AdjVectorBQM) :
    (L.foldl (fun a e => modifyAt a e.1 (fun p => (nbEraseLb p.1 v, p.2))) adj).length
      = adj.length := by
  induction L generalizing adj with
  | nil => rfl
  | cons e rest ih =>
    simp only [List.foldl_cons]
    rw [ih, modifyAt_length]

theorem getD_dropLast (l : AdjVectorBQM) (j : Nat) (h : j < l.length - 1) :
    l.dropLast.getD j (([], 0) : Neighborhood × Bias) = l.getD j ([], 0) := by
  have h1 : j < l.dropLast.length := by rw [List.length_dropLast]; exact h
  have h2 : j < l.length := lt_of_lt_of_le h (Nat.sub_le _ _)
  rw [List.getD_eq_getElem _ _ h1, List.getD_eq_getElem _ _ h2]
  exact List.getElem_dropLast l j h1

theorem nb_dropLast (l : AdjVectorBQM) (j : Nat) (h : j < l.length - 1) :
    neighborhood l.dropLast j = neighborhood l j := by
  rw [neighborhood, getD_dropLast _ _ h, neighborhood]

theorem linear_dropLast (l : AdjVectorBQM) (j : Nat) (h : j < l.length - 1) :
    get_linear l.dropLast j = get_linear l j := by
  rw [get_linear, getD_dropLast _ _ h, get_linear]

theorem length_pop_variable (bqm : AdjVectorBQM) :
    ((pop_variable bqm).1).length = bqm.length - 1 := by
  rw [pop_variable]
  simp only
  rw [List.length_dropLast, length_fold_erase]

theorem pop_variable_snd (bqm : AdjVectorBQM) :
    (pop_variable bqm).2 = bqm.length - 1 := by
  rw [pop_variable]
  simp only
  rw [List.length_dropLast, length_fold_erase]

theorem nb_pop_variable (bqm : AdjVectorBQM) (w : Nat)
    (hs : SortedNb (neighborhood bqm (bqm.length - 1))) (hw : w < bqm.length - 1) :
    neighborhood (pop_variable bqm).1 w
      = if w ∈ keys (neighborhood bqm (bqm.length - 1))
        then nbEraseLb (neighborhood bqm w) (bqm.length - 1)
        else neighborhood bqm w := by
  rw [pop_variable]
  simp only
  rw [nb_dropLast _ _ (by rw [length_fold_erase]; exact hw),
    nb_fold_erase _ _ _ _ (sorted_keys_nodup _ hs)]

theorem linear_pop_variable (bqm : AdjVectorBQM) (w : Nat) (hw : w < bqm.length - 1) :
    get_linear (pop_variable bqm).1 w = get_linear bqm w := by
  rw [pop_variable]
  simp only
  rw [linear_dropLast _ _ (by rw [length_fold_erase]; exact hw), linear_fold_erase]

theorem copyOf_eq (bqm : AdjVectorBQM) : copyOf bqm = bqm := by
  apply List.ext_getElem
  · simp [copyOf, num_variables]
  · intro i h1 h2
    simp only [copyOf, List.getElem_map, List.getElem_range]
    rw [neighborhood, get_linear, List.getD_eq_getElem _ _ h2]

theorem foldl_add_length (l : AdjVectorBQM) (a : Nat) :
    l.foldl (fun c p => c + p.1.length) a = a + (l.map (fun p => p.1.length)).sum := by
  induction l generalizing a with
  | nil => simp
  | cons x xs ih => simp [ih, Nat.add_assoc]

theorem num_interactions_eq (bqm : AdjVectorBQM) :
    num_interactions bqm = (bqm.map (fun p => p.1.length)).sum / 2 := by
  rw [num_interactions, foldl_add_length]
  simp

theorem sum_map_modifyAt (m : Neighborhood × Bias → Nat) (l : AdjVectorBQM) (i : Nat)
    (f : Neighborhood × Bias → Neighborhood × Bias) (h : i < l.length) :
    ((modifyAt l i f).map m).sum + m (l.getD i ([], 0))
      = (l.map m).sum + m (f (l.getD i ([], 0))) := by
  induction l generalizing i with
  | nil => simp at h
  | cons x xs ih =>
    cases i with
    | zero =>
      simp only [modifyAt, List.map_cons, List.sum_cons, List.getD_cons_zero]
      omega
    | succ n =>
      simp only [modifyAt, List.map_cons, List.sum_cons, List.getD_cons_succ]
      have := ih n (by simpa using h)
      omega

/-! ## Preservation of the invariant -/

theorem valid_nil : Valid ([] : AdjVectorBQM) := by
  refine ⟨?_, ?_, ?_, ?_⟩ <;> intro u
  · exact List.Pairwise.nil
  all_goals exact fun e he => absurd he (by simp [neighborhood])

theorem valid_not_found (bqm : AdjVectorBQM) (h : Valid bqm) (u v : Nat)
    (hk : v ∉ keys (neighborhood bqm u)) : u ∉ keys (neighborhood bqm v) := by
  intro hc
  obtain ⟨b, hb⟩ := (mem_keys_iff _ _).mp hc
  exact hk ((mem_keys_iff _ _).mpr ⟨b, h.symm v (u, b) hb⟩)

theorem valid_add (bqm : AdjVectorBQM) (h : Valid bqm) : Valid (add_variable bqm).1 := by
  refine ⟨?_, ?_, ?_, ?_⟩ <;> intro w
  · rw [nb_add_variable]
    exact h.sorted w
  · intro e he
    rw [nb_add_variable] at he
    rw [num_variables, length_add_variable]
    have := h.bounded w e he
    rw [num_variables] at this
    omega
  · intro e he
    rw [nb_add_variable] at he
    exact h.noSelf w e he
  · intro e he
    rw [nb_add_variable] at he
    rw [nb_add_variable]
    exact h.symm w e he

theorem valid_set_linear (bqm : AdjVectorBQM) (v : Nat) (b : Bias) (h : Valid bqm) :
    Valid (set_linear bqm v b) := by
  refine ⟨?_, ?_, ?_, ?_⟩ <;> intro w
  · rw [nb_set_linear]
    exact h.sorted w
  · intro e he
    rw [nb_set_linear] at he
    rw [num_variables, length_set_linear]
    exact h.bounded w e he
  · intro e he
    rw [nb_set_linear] at he
    exact h.noSelf w e he
  · intro e he
    rw [nb_set_linear] at he
    rw [nb_set_linear]
    exact h.symm w e he

theorem valid_set_quadratic (bqm : AdjVectorBQM) (u v : Nat) (b : Bias) (h : Valid bqm)
    (hu : u < bqm.length) (hv : v < bqm.length) (huv : u ≠ v) :
    Valid (set_quadratic bqm u v b).1 := by
  have hnb : ∀ w, w ≠ u → w ≠ v →
      neighborhood (set_quadratic bqm u v b).1 w = neighborhood bqm w :=
    fun w h1 h2 => nb_set_quadratic_other bqm u v b w h1 h2
  have hlen : num_variables (set_quadratic bqm u v b).1 = num_variables bqm := by
    rw [num_variables, length_set_quadratic, num_variables]
  by_cases hex : v ∈ keys (neighborhood bqm u)
  · obtain ⟨b0, hb0⟩ := (mem_keys_iff _ _).mp hex
    have hbv : (u, b0) ∈ neighborhood bqm v := h.symm u (v, b0) hb0
    have hexB : nbFound (neighborhood bqm u) v = true :=
      nbFound_of_mem _ _ _ (h.sorted u) hb0
    have hnbu : neighborhood (set_quadratic bqm u v b).1 u
        = nbUpdate (neighborhood bqm u) v b true := by
      rw [nb_set_quadratic_u _ _ _ _ hu huv, hexB]
    have hnbv : neighborhood (set_quadratic bqm u v b).1 v
        = nbUpdate (neighborhood bqm v) u b true := by
      rw [nb_set_quadratic_v _ _ _ _ hv huv, hexB]
    obtain ⟨su, lu, mu⟩ := nbUpdate_true_spec (neighborhood bqm u) v b b0 (h.sorted u) hb0
    obtain ⟨sv, lv, mv⟩ := nbUpdate_true_spec (neighborhood bqm v) u b b0 (h.sorted v) hbv
    refine ⟨?_, ?_, ?_, ?_⟩
    · intro w
      rcases eq_or_ne w u with rfl | hwu
      · rw [hnbu]; exact su
      · rcases eq_or_ne w v with rfl | hwv
        · rw [hnbv]; exact sv
        · rw [hnb w hwu hwv]; exact h.sorted w
    · intro w e he
      rw [hlen]
      rcases eq_or_ne w u with rfl | hwu
      · rw [hnbu] at he
        rcases (mu e).mp he with rfl | ⟨hmem, -⟩
        · exact hv
        · exact h.bounded w e hmem
      · rcases eq_or_ne w v with rfl | hwv
        · rw [hnbv] at he
          rcases (mv e).mp he with rfl | ⟨hmem, -⟩
          · exact hu
          · exact h.bounded w e hmem
        · rw [hnb w hwu hwv] at he
          exact h.bounded w e he
    · intro w e he
      rcases eq_or_ne w u with rfl | hwu
      · rw [hnbu] at he
        rcases (mu e).mp he with rfl | ⟨hmem, -⟩
        · exact Ne.symm huv
        · exact h.noSelf w e hmem
      · rcases eq_or_ne w v with rfl | hwv
        · rw [hnbv] at he
          rcases (mv e).mp he with rfl | ⟨hmem, -⟩
          · exact huv
          · exact h.noSelf w e hmem
        · rw [hnb w hwu hwv] at he
          exact h.noSelf w e he
    · intro w e he
      rcases eq_or_ne w u with rfl | hwu
      · rw [hnbu] at he
        rcases (mu e).mp he with rfl | ⟨hmem, hne⟩
        · show (w, b) ∈ neighborhood (set_quadratic bqm w v b).1 v
          rw [hnbv]
          exact (mv (w, b)).mpr (Or.inl rfl)
        · have hx := h.symm w e hmem
          have hxu : e.1 ≠ w := h.noSelf w e hmem
          rw [hnb e.1 hxu hne]
          exact hx
      · rcases eq_or_ne w v with rfl | hwv
        · rw [hnbv] at he
          rcases (mv e).mp he with rfl | ⟨hmem, hne⟩
          · show (w, b) ∈ neighborhood (set_quadratic bqm u w b).1 u
            rw [hnbu]
            exact (mu (w, b)).mpr (Or.inl rfl)
          · have hx := h.symm w e hmem
            have hxv : e.1 ≠ w := h.noSelf w e hmem
            rw [hnb e.1 hne hxv]
            exact hx
        · rw [hnb w hwu hwv] at he
          have hx := h.symm w e he
          rcases eq_or_ne e.1 u with h1 | h1
          · rw [h1] at hx ⊢
            rw [hnbu]
            exact (mu (w, e.2)).mpr (Or.inr ⟨hx, hwv⟩)
          · rcases eq_or_ne e.1 v with h2 | h2
            · rw [h2] at hx ⊢
              rw [hnbv]
              exact (mv (w, e.2)).mpr (Or.inr ⟨hx, hwu⟩)
            · rw [hnb e.1 h1 h2]
              exact hx
  · have hex2 : u ∉ keys (neighborhood bqm v) := valid_not_found bqm h u v hex
    have hexB : nbFound (neighborhood bqm u) v = false :=
      nbFound_of_not_mem _ _ (h.sorted u) hex
    have hnbu : neighborhood (set_quadratic bqm u v b).1 u
        = nbUpdate (neighborhood bqm u) v b false := by
      rw [nb_set_quadratic_u _ _ _ _ hu huv, hexB]
    have hnbv : neighborhood (set_quadratic bqm u v b).1 v
        = nbUpdate (neighborhood bqm v) u b false := by
      rw [nb_set_quadratic_v _ _ _ _ hv huv, hexB]
    obtain ⟨su, lu, mu⟩ := nbUpdate_false_spec (neighborhood bqm u) v b (h.sorted u) hex
    obtain ⟨sv, lv, mv⟩ := nbUpdate_false_spec (neighborhood bqm v) u b (h.sorted v) hex2
    have hkey_u : ∀ e ∈ neighborhood bqm u, e.1 ≠ v := by
      intro e he hc
      apply hex
      apply (mem_keys_iff _ _).mpr
      refine ⟨e.2, ?_⟩
      rw [← hc]
      exact he
    have hkey_v : ∀ e ∈ neighborhood bqm v, e.1 ≠ u := by
      intro e he hc
      apply hex2
      apply (mem_keys_iff _ _).mpr
      refine ⟨e.2, ?_⟩
      rw [← hc]
      exact he
    refine ⟨?_, ?_, ?_, ?_⟩
    · intro w
      rcases eq_or_ne w u with rfl | hwu
      · rw [hnbu]; exact su
      · rcases eq_or_ne w v with rfl | hwv
        · rw [hnbv]; exact sv
        · rw [hnb w hwu hwv]; exact h.sorted w
    · intro w e he
      rw [hlen]
      rcases eq_or_ne w u with rfl | hwu
      · rw [hnbu] at he
        rcases (mu e).mp he with rfl | hmem
        · exact hv
        · exact h.bounded w e hmem
      · rcases eq_or_ne w v with rfl | hwv
        · rw [hnbv] at he
          rcases (mv e).mp he with rfl | hmem
          · exact hu
          · exact h.bounded w e hmem
        · rw [hnb w hwu hwv] at he
          exact h.bounded w e he
    · intro w e he
      rcases eq_or_ne w u with rfl | hwu
      · rw [hnbu] at he
        rcases (mu e).mp he with rfl | hmem
        · exact Ne.symm huv
        · exact h.noSelf w e hmem
      · rcases eq_or_ne w v with rfl | hwv
        · rw [hnbv] at he
          rcases (mv e).mp he with rfl | hmem
          · exact huv
          · exact h.noSelf w e hmem
        · rw [hnb w hwu hwv] at he
          exact h.noSelf w e he
    · intro w e he
      rcases eq_or_ne w u with rfl | hwu
      · rw [hnbu] at he
        rcases (mu e).mp he with rfl | hmem
        · show (w, b) ∈ neighborhood (set_quadratic bqm w v b).1 v
          rw [hnbv]
          exact (mv (w, b)).mpr (Or.inl rfl)
        · have hx := h.symm w e hmem
          have hxu : e.1 ≠ w := h.noSelf w e hmem
          rw [hnb e.1 hxu (hkey_u e hmem)]
          exact hx
      · rcases eq_or_ne w v with rfl | hwv
        · rw [hnbv] at he
          rcases (mv e).mp he with rfl | hmem
          · show (w, b) ∈ neighborhood (set_quadratic bqm u w b).1 u
            rw [hnbu]
            exact (mu (w, b)).mpr (Or.inl rfl)
          · have hx := h.symm w e hmem
            have hxv : e.1 ≠ w := h.noSelf w e hmem
            rw [hnb e.1 (hkey_v e hmem) hxv]
            exact hx
        · rw [hnb w hwu hwv] at he
          have hx := h.symm w e he
          rcases eq_or_ne e.1 u with h1 | h1
          · rw [h1] at hx ⊢
            rw [hnbu]
            exact (mu (w, e.2)).mpr (Or.inr hx)
          · rcases eq_or_ne e.1 v with h2 | h2
            · rw [h2] at hx ⊢
              rw [hnbv]
              exact (mv (w, e.2)).mpr (Or.inr hx)
            · rw [hnb e.1 h1 h2]
              exact hx

theorem valid_remove (bqm : AdjVectorBQM) (u v : Nat) (h : Valid bqm) :
    Valid (remove_interaction bqm u v).1 := by
  by_cases hf : nbFound (neighborhood bqm u) v = true
  · have hex : v ∈ keys (neighborhood bqm u) := by
      by_contra hc
      rw [nbFound_of_not_mem _ _ (h.sorted u) hc] at hf
      cases hf
    obtain ⟨b0, hb0⟩ := (mem_keys_iff _ _).mp hex
    have hbv : (u, b0) ∈ neighborhood bqm v := h.symm u (v, b0) hb0
    have huv : u ≠ v := Ne.symm (h.noSelf u (v, b0) hb0)
    have hu : u < bqm.length := by
      by_contra hc
      rw [nb_out_of_range _ _ (Nat.le_of_not_lt hc)] at hb0
      cases hb0
    have hv : v < bqm.length := by
      by_contra hc
      rw [nb_out_of_range _ _ (Nat.le_of_not_lt hc)] at hbv
      cases hbv
    have hnbu : neighborhood (remove_interaction bqm u v).1 u
        = nbEraseLb (neighborhood bqm u) v :=
      nb_remove_interaction_found_u _ _ _ hf hu huv
    have hnbv : neighborhood (remove_interaction bqm u v).1 v
        = nbEraseLb (neighborhood bqm v) u :=
      nb_remove_interaction_found_v _ _ _ hf hv huv
    have hnb : ∀ w, w ≠ u → w ≠ v →
        neighborhood (remove_interaction bqm u v).1 w = neighborhood bqm w :=
      fun w h1 h2 => nb_remove_interaction_other bqm u v w h1 h2
    obtain ⟨su, lu, mu⟩ := nbEraseLb_spec (neighborhood bqm u) v b0 (h.sorted u) hb0
    obtain ⟨sv, lv, mv⟩ := nbEraseLb_spec (neighborhood bqm v) u b0 (h.sorted v) hbv
    refine ⟨?_, ?_, ?_, ?_⟩
    · intro w
      rcases eq_or_ne w u with rfl | hwu
      · rw [hnbu]; exact su
      · rcases eq_or_ne w v with rfl | hwv
        · rw [hnbv]; exact sv
        · rw [hnb w hwu hwv]; exact h.sorted w
    · intro w e he
      rw [num_variables, length_remove_interaction]
      rcases eq_or_ne w u with rfl | hwu
      · rw [hnbu] at he
        exact h.bounded w e ((mu e).mp he).1
      · rcases eq_or_ne w v with rfl | hwv
        · rw [hnbv] at he
          exact h.bounded w e ((mv e).mp he).1
        · rw [hnb w hwu hwv] at he
          exact h.bounded w e he
    · intro w e he
      rcases eq_or_ne w u with rfl | hwu
      · rw [hnbu] at he
        exact h.noSelf w e ((mu e).mp he).1
      · rcases eq_or_ne w v with rfl | hwv
        · rw [hnbv] at he
          exact h.noSelf w e ((mv e).mp he).1
        · rw [hnb w hwu hwv] at he
          exact h.noSelf w e he
    · intro w e he
      rcases eq_or_ne w u with rfl | hwu
      · rw [hnbu] at he
        obtain ⟨hmem, hne⟩ := (mu e).mp he
        have hx := h.symm w e hmem
        have hxu : e.1 ≠ w := h.noSelf w e hmem
        rw [hnb e.1 hxu hne]
        exact hx
      · rcases eq_or_ne w v with rfl | hwv
        · rw [hnbv] at he
          obtain ⟨hmem, hne⟩ := (mv e).mp he
          have hx := h.symm w e hmem
          have hxv : e.1 ≠ w := h.noSelf w e hmem
          rw [hnb e.1 hne hxv]
          exact hx
        · rw [hnb w hwu hwv] at he
          have hx := h.symm w e he
          rcases eq_or_ne e.1 u with h1 | h1
          · rw [h1] at hx ⊢
            rw [hnbu]
            exact (mu (w, e.2)).mpr ⟨hx, hwv⟩
          · rcases eq_or_ne e.1 v with h2 | h2
            · rw [h2] at hx ⊢
              rw [hnbv]
              exact (mv (w, e.2)).mpr ⟨hx, hwu⟩
            · rw [hnb e.1 h1 h2]
              exact hx
  · have : remove_interaction bqm u v = (bqm, false) :=
      remove_interaction_not_found _ _ _ (by simpa using hf)
    rw [this]
    exact h

theorem valid_pop (bqm : AdjVectorBQM) (h : Valid bqm) : Valid (pop_variable bqm).1 := by
  have hlen : ((pop_variable bqm).1).length = bqm.length - 1 := length_pop_variable bqm
  have hout : ∀ w, ¬ w < bqm.length - 1 → neighborhood (pop_variable bqm).1 w = [] := by
    intro w hw
    exact nb_out_of_range _ _ (by rw [hlen]; omega)
  have hmemc : ∀ w, w < bqm.length - 1 → ∀ e,
      (e ∈ neighborhood (pop_variable bqm).1 w ↔
        e ∈ neighborhood bqm w ∧ e.1 ≠ bqm.length - 1) := by
    intro w hw e
    rw [nb_pop_variable bqm w (h.sorted _) hw]
    by_cases hk : w ∈ keys (neighborhood bqm (bqm.length - 1))
    · rw [if_pos hk]
      obtain ⟨bw, hbw⟩ := (mem_keys_iff _ _).mp hk
      have hvw : (bqm.length - 1, bw) ∈ neighborhood bqm w :=
        h.symm (bqm.length - 1) (w, bw) hbw
      exact (nbEraseLb_spec _ _ bw (h.sorted w) hvw).2.2 e
    · rw [if_neg hk]
      constructor
      · intro he
        refine ⟨he, ?_⟩
        intro hc
        apply hk
        apply (mem_keys_iff _ _).mpr
        refine ⟨e.2, ?_⟩
        have hx := h.symm w e he
        rw [hc] at hx
        exact hx
      · exact fun he => he.1
  have hsorted : ∀ w, SortedNb (neighborhood (pop_variable bqm).1 w) := by
    intro w
    by_cases hw : w < bqm.length - 1
    · rw [nb_pop_variable bqm w (h.sorted _) hw]
      by_cases hk : w ∈ keys (neighborhood bqm (bqm.length - 1))
      · rw [if_pos hk]
        obtain ⟨bw, hbw⟩ := (mem_keys_iff _ _).mp hk
        have hvw : (bqm.length - 1, bw) ∈ neighborhood bqm w :=
          h.symm (bqm.length - 1) (w, bw) hbw
        exact (nbEraseLb_spec _ _ bw (h.sorted w) hvw).1
      · rw [if_neg hk]
        exact h.sorted w
    · rw [hout w hw]
      exact List.Pairwise.nil
  refine ⟨hsorted, ?_, ?_, ?_⟩
  · intro w e he
    rw [num_variables, hlen]
    by_cases hw : w < bqm.length - 1
    · obtain ⟨hm, hne⟩ := (hmemc w hw e).mp he
      have := h.bounded w e hm
      rw [num_variables] at this
      omega
    · rw [hout w hw] at he
      cases he
  · intro w e he
    by_cases hw : w < bqm.length - 1
    · exact h.noSelf w e ((hmemc w hw e).mp he).1
    · rw [hout w hw] at he
      cases he
  · intro w e he
    by_cases hw : w < bqm.length - 1
    · obtain ⟨hm, hne⟩ := (hmemc w hw e).mp he
      have hx := h.symm w e hm
      have hb := h.bounded w e hm
      rw [num_variables] at hb
      have hxlt : e.1 < bqm.length - 1 := by omega
      exact (hmemc e.1 hxlt (w, e.2)).mpr ⟨hx, by omega⟩
    · rw [hout w hw] at he
      cases he

/-! ## Closed form of the neighborhoods built by the dense constructor -/

theorem qd_comm (d : Nat → Bias) (n u v : Nat) : qd d n u v = qd d n v u := by
  rw [qd, qd, Int.add_comm]

/-- Either `[(k, q)]` when `q` is nonzero, or nothing: one potential edge entry. -/
def entryIf (k : Nat) (q : Bias) : Neighborhood := if q = 0 then [] else [(k, q)]

/-- Concatenate the neighborhoods `f x` over a list of indices. -/
def catMaps (f : Nat → Neighborhood) : List Nat → Neighborhood
  | [] => []
  | x :: xs => f x ++ catMaps f xs

/-- What one `denseStep` at `(u, v)` appends to the neighborhood of `w`. -/
def stepContrib (d : Nat → Bias) (n u v w : Nat) : Neighborhood :=
  if qd d n u v = 0 then []
  else if w = u then [(v, qd d n u v)]
  else if w = v then [(u, qd d n u v)]
  else []

/-- Entries the dense constructor gives `w` from pairs `(u, w)` with `u < w`. -/
def lowEntries (d : Nat → Bias) (n w : Nat) : Neighborhood :=
  catMaps (fun u => entryIf u (qd d n u w)) (List.range w)

/-- Entries the dense constructor gives `w` from pairs `(w, x)` with `x > w`. -/
def highEntries (d : Nat → Bias) (n w : Nat) : Neighborhood :=
  catMaps (fun x => entryIf x (qd d n w x)) (List.range' (w + 1) (n - (w + 1)))

theorem catMaps_append (f : Nat → Neighborhood) (l1 l2 : List Nat) :
    catMaps f (l1 ++ l2) = catMaps f l1 ++ catMaps f l2 := by
  induction l1 with
  | nil => rfl
  | cons x xs ih => simp [catMaps, ih]

theorem catMaps_congr (f g : Nat → Neighborhood) (l : List Nat)
    (h : ∀ x ∈ l, f x = g x) : catMaps f l = catMaps g l := by
  induction l with
  | nil => rfl
  | cons x xs ih =>
    rw [catMaps, catMaps, h x (List.mem_cons_self _ _),
      ih (fun y hy => h y (List.mem_cons_of_mem _ hy))]

theorem catMaps_nil (f : Nat → Neighborhood) (l : List Nat)
    (h : ∀ x ∈ l, f x = []) : catMaps f l = [] := by
  induction l with
  | nil => rfl
  | cons x xs ih =>
    rw [catMaps, h x (List.mem_cons_self _ _),
      ih (fun y hy => h y (List.mem_cons_of_mem _ hy)), List.nil_append]

theorem catMaps_single (f : Nat → Neighborhood) (l : List Nat) (w : Nat)
    (hnd : l.Nodup) (hw : w ∈ l) (h : ∀ x ∈ l, x ≠ w → f x = []) :
    catMaps f l = f w := by
  induction l with
  | nil => cases hw
  | cons x xs ih =>
    rw [List.nodup_cons] at hnd
    rcases List.mem_cons.mp hw with rfl | hw'
    · rw [catMaps, catMaps_nil f xs
        (fun y hy => h y (List.mem_cons_of_mem _ hy) (fun hc => hnd.1 (hc ▸ hy))),
        List.append_nil]
    · have hx : x ≠ w := fun hc => hnd.1 (hc ▸ hw')
      rw [catMaps, h x (List.mem_cons_self _ _) hx, List.nil_append]
      exact ih hnd.2 hw' (fun y hy => h y (List.mem_cons_of_mem _ hy))

theorem length_denseStep (d : Nat → Bias) (n : Nat) (adj : AdjVectorBQM) (u v : Nat) :
    (denseStep d n adj u v).length = adj.length := by
  rw [denseStep]
  by_cases hq : qd d n u v = 0
  · simp [hq]
  · rw [if_pos hq, modifyAt_length, modifyAt_length]

theorem linear_denseStep (d : Nat → Bias) (n : Nat) (adj : AdjVectorBQM) (u v w : Nat) :
    get_linear (denseStep d n adj u v) w = get_linear adj w := by
  rw [denseStep]
  by_cases hq : qd d n u v = 0
  · simp [hq]
  · rw [if_pos hq, get_linear, getD_modifyAt_snd, getD_modifyAt_snd, get_linear]

theorem nb_denseStep (d : Nat → Bias) (n : Nat) (adj : AdjVectorBQM) (u v w : Nat)
    (huv : u ≠ v) (hu : u < adj.length) (hv : v < adj.length) :
    neighborhood (denseStep d n adj u v) w
      = neighborhood adj w ++ stepContrib d n u v w := by
  rw [denseStep, stepContrib]
  by_cases hq : qd d n u v = 0
  · simp [hq]
  · rw [if_pos hq, if_neg hq]
    rcases eq_or_ne w u with rfl | hwu
    · rw [if_pos rfl, nb_modifyAt_ne _ _ _ _ huv, neighborhood,
        getD_modifyAt_eq _ _ _ _ hu]
      rfl
    · rw [if_neg hwu]
      rcases eq_or_ne w v with rfl | hwv
      · rw [if_pos rfl, neighborhood,
          getD_modifyAt_eq _ _ _ _ (by rw [modifyAt_length]; exact hv)]
        simp only
        rw [getD_modifyAt_ne _ _ _ _ _ (Ne.symm huv)]
        rfl
      · rw [if_neg hwv, List.append_nil, nb_modifyAt_ne _ _ _ _ hwv,
          nb_modifyAt_ne _ _ _ _ hwu]

theorem length_inner_fold (d : Nat → Bias) (n u : Nat) (vs : List Nat) (adj : AdjVectorBQM) :
    (vs.foldl (fun a x => denseStep d n a u x) adj).length = adj.length := by
  induction vs generalizing adj with
  | nil => rfl
  | cons x xs ih =>
    simp only [List.foldl_cons]
    rw [ih, length_denseStep]

theorem linear_inner_fold (d : Nat → Bias) (n u : Nat) (vs : List Nat)
    (adj : AdjVectorBQM) (w : Nat) :
    get_linear (vs.foldl (fun a x => denseStep d n a u x) adj) w = get_linear adj w := by
  induction vs generalizing adj with
  | nil => rfl
  | cons x xs ih =>
    simp only [List.foldl_cons]
    rw [ih, linear_denseStep]

theorem nb_inner_fold (d : Nat → Bias) (n u : Nat) (vs : List Nat) (adj : AdjVectorBQM)
    (w : Nat) (hu : u < adj.length) (hvs : ∀ x ∈ vs, x < adj.length ∧ u ≠ x) :
    neighborhood (vs.foldl (fun a x => denseStep d n a u x) adj) w
      = neighborhood adj w ++ catMaps (fun x => stepContrib d n u x w) vs := by
  induction vs generalizing adj with
  | nil => simp [catMaps]
  | cons x xs ih =>
    simp only [List.foldl_cons]
    have hx := hvs x (List.mem_cons_self _ _)
    rw [ih (denseStep d n adj u x) (by rw [length_denseStep]; exact hu)
      (fun y hy => by
        rw [length_denseStep]
        exact hvs y (List.mem_cons_of_mem _ hy)),
      nb_denseStep d n adj u x w hx.2 hu hx.1, catMaps, List.append_assoc]

theorem length_outer_fold (d : Nat → Bias) (n : Nat) (us : List Nat) (adj : AdjVectorBQM) :
    (us.foldl (fun a u =>
      (List.range' (u + 1) (n - (u + 1))).foldl (fun a2 x => denseStep d n a2 u x) a)
      adj).length = adj.length := by
  induction us generalizing adj with
  | nil => rfl
  | cons u us ih =>
    simp only [List.foldl_cons]
    rw [ih, length_inner_fold]

theorem linear_outer_fold (d : Nat → Bias) (n : Nat) (us : List Nat) (adj : AdjVectorBQM)
    (w : Nat) :
    get_linear (us.foldl (fun a u =>
      (List.range' (u + 1) (n - (u + 1))).foldl (fun a2 x => denseStep d n a2 u x) a)
      adj) w = get_linear adj w := by
  induction us generalizing adj with
  | nil => rfl
  | cons u us ih =>
    simp only [List.foldl_cons]
    rw [ih, linear_inner_fold]

theorem nb_outer_fold (d : Nat → Bias) (n : Nat) (us : List Nat) (adj : AdjVectorBQM)
    (w : Nat) (hlen : adj.length = n) (hus : ∀ u ∈ us, u < n) :
    neighborhood (us.foldl (fun a u =>
      (List.range' (u + 1) (n - (u + 1))).foldl (fun a2 x => denseStep d n a2 u x) a)
      adj) w
      = neighborhood adj w ++ catMaps (fun u =>
          catMaps (fun x => stepContrib d n u x w) (List.range' (u + 1) (n - (u + 1)))) us := by
  induction us generalizing adj with
  | nil => simp [catMaps]
  | cons u us ih =>
    simp only [List.foldl_cons]
    have hu : u < n := hus u (List.mem_cons_self _ _)
    rw [ih _ (by rw [length_inner_fold, hlen]) (fun y hy => hus y (List.mem_cons_of_mem _ hy)),
      nb_inner_fold d n u _ adj w (by rw [hlen]; exact hu) ?_, catMaps, List.append_assoc]
    intro x hx
    rw [List.mem_range'_1] at hx
    constructor
    · rw [hlen]
      omega
    · omega

theorem range'_split_len (m : Nat) : ∀ (s k : Nat),
    List.range' s (m + k) = List.range' s m ++ List.range' (s + m) k := by
  induction m with
  | zero =>
    intro s k
    simp
  | succ j ih =>
    intro s k
    rw [Nat.succ_add]
    show s :: List.range' (s + 1) (j + k) = (s :: List.range' (s + 1) j) ++ List.range' (s + (j + 1)) k
    rw [ih (s + 1) k]
    have h : s + 1 + j = s + (j + 1) := by omega
    rw [h]
    rfl

theorem stepContrib_at_u (d : Nat → Bias) (n w x : Nat) :
    stepContrib d n w x w = entryIf x (qd d n w x) := by
  rw [stepContrib, entryIf]
  by_cases hq : qd d n w x = 0
  · rw [if_pos hq, if_pos hq]
  · rw [if_neg hq, if_neg hq, if_pos rfl]

theorem stepContrib_at_v (d : Nat → Bias) (n u w : Nat) (huw : u ≠ w) :
    stepContrib d n u w w = entryIf u (qd d n u w) := by
  rw [stepContrib, entryIf]
  by_cases hq : qd d n u w = 0
  · rw [if_pos hq, if_pos hq]
  · rw [if_neg hq, if_neg hq, if_neg (Ne.symm huw), if_pos rfl]

theorem stepContrib_other (d : Nat → Bias) (n u v w : Nat) (hwu : w ≠ u) (hwv : w ≠ v) :
    stepContrib d n u v w = [] := by
  rw [stepContrib]
  by_cases hq : qd d n u v = 0
  · rw [if_pos hq]
  · rw [if_neg hq, if_neg hwu, if_neg hwv]

theorem length_fromDense (d : Nat → Bias) (n : Nat) (ig : Bool) :
    (fromDense d n ig).length = n := by
  rw [fromDense, length_outer_fold]
  simp

theorem nb_fromDense (d : Nat → Bias) (n : Nat) (ig : Bool) (w : Nat) (hw : w < n) :
    neighborhood (fromDense d n ig) w = lowEntries d n w ++ highEntries d n w := by
  rw [fromDense, nb_outer_fold d n (List.range n) _ w (by simp)
    (fun u hu => List.mem_range.mp hu)]
  have hinit : neighborhood
      ((List.range n).map (fun v => (([] : Neighborhood), if ig then 0 else d (v * (n + 1))))) w
      = [] := by
    by_cases hw2 : w < n
    · rw [neighborhood, List.getD_eq_getElem _ _ (by simp [hw2])]
      simp
    · exact nb_out_of_range _ _ (by simp [Nat.le_of_not_lt hw2])
  rw [hinit, List.nil_append]
  have hsplit : List.range n = List.range w ++ (w :: List.range' (w + 1) (n - (w + 1))) := by
    have h1 : n = w + (n - w) := by omega
    have h2 : List.range' w (n - w) = w :: List.range' (w + 1) (n - (w + 1))  := by
      have h3 : n - w = (n - (w + 1)) + 1 := by omega
      rw [h3]
      rfl
    rw [List.range_eq_range']
    conv_lhs => rw [h1]
    rw [range'_split_len w 0 (n - w), Nat.zero_add, ← List.range_eq_range', h2]
  rw [hsplit, catMaps_append, catMaps]
  have hlow : catMaps (fun u =>
      catMaps (fun x => stepContrib d n u x w) (List.range' (u + 1) (n - (u + 1))))
      (List.range w) = lowEntries d n w := by
    rw [lowEntries]
    apply catMaps_congr
    intro u hu
    have hult : u < w := List.mem_range.mp hu
    rw [catMaps_single _ _ w (List.nodup_range' _ _)
      (by rw [List.mem_range'_1]; omega)
      (fun x hx hxw => stepContrib_other d n u x w (by omega) (Ne.symm hxw))]
    exact stepContrib_at_v d n u w (by omega)
  have hhigh : catMaps (fun x => stepContrib d n w x w) (List.range' (w + 1) (n - (w + 1)))
      = highEntries d n w := by
    rw [highEntries]
    apply catMaps_congr
    intro x hx
    exact stepContrib_at_u d n w x
  have hgt : catMaps (fun u =>
      catMaps (fun x => stepContrib d n u x w) (List.range' (u + 1) (n - (u + 1))))
      (List.range' (w + 1) (n - (w + 1))) = [] := by
    apply catMaps_nil
    intro u hu
    rw [List.mem_range'_1] at hu
    apply catMaps_nil
    intro x hx
    rw [List.mem_range'_1] at hx
    exact stepContrib_other d n u x w (by omega) (by omega)
  rw [hlow, hhigh, hgt, List.append_nil]

theorem linear_fromDense (d : Nat → Bias) (n : Nat) (ig : Bool) (w : Nat) (hw : w < n) :
    get_linear (fromDense d n ig) w = if ig then 0 else d (w * (n + 1)) := by
  rw [fromDense, linear_outer_fold, get_linear, List.getD_eq_getElem _ _ (by simp [hw])]
  simp

theorem mem_catMaps_entryIf (g : Nat → Bias) (l : List Nat) (e : Entry) :
    e ∈ catMaps (fun x => entryIf x (g x)) l ↔ e.1 ∈ l ∧ g e.1 ≠ 0 ∧ e.2 = g e.1 := by
  induction l with
  | nil => simp [catMaps]
  | cons x xs ih =>
    rw [catMaps, List.mem_append, ih]
    constructor
    · rintro (h1 | ⟨h2, h3, h4⟩)
      · rw [entryIf] at h1
        by_cases hq : g x = 0
        · rw [if_pos hq] at h1
          cases h1
        · rw [if_neg hq] at h1
          rcases List.mem_singleton.mp h1 with rfl
          exact ⟨List.mem_cons_self _ _, hq, rfl⟩
      · exact ⟨List.mem_cons_of_mem _ h2, h3, h4⟩
    · rintro ⟨h1, h2, h3⟩
      rcases List.mem_cons.mp h1 with h4 | h4
      · left
        rw [entryIf, if_neg (h4 ▸ h2)]
        obtain ⟨e1, e2⟩ := e
        simp only at h3 h4
        subst h4
        subst h3
        exact List.mem_singleton.mpr rfl
      · exact Or.inr ⟨h4, h2, h3⟩

theorem sorted_catMaps_entryIf (g : Nat → Bias) (l : List Nat)
    (hl : l.Pairwise (· < ·)) :
    SortedNb (catMaps (fun x => entryIf x (g x)) l) := by
  induction l with
  | nil => exact List.Pairwise.nil
  | cons x xs ih =>
    rw [List.pairwise_cons] at hl
    rw [catMaps, SortedNb, List.pairwise_append]
    refine ⟨?_, ih hl.2, ?_⟩
    · rw [entryIf]
      by_cases hq : g x = 0
      · rw [if_pos hq]
        exact List.Pairwise.nil
      · rw [if_neg hq]
        exact List.pairwise_singleton _ _
    · intro a ha c hc
      rw [entryIf] at ha
      by_cases hq : g x = 0
      · rw [if_pos hq] at ha
        cases ha
      · rw [if_neg hq] at ha
        rcases List.mem_singleton.mp ha with rfl
        exact hl.1 c.1 ((mem_catMaps_entryIf g xs c).mp hc).1

theorem mem_lowEntries (d : Nat → Bias) (n w : Nat) (e : Entry) :
    e ∈ lowEntries d n w ↔ e.1 < w ∧ qd d n e.1 w ≠ 0 ∧ e.2 = qd d n e.1 w := by
  rw [lowEntries, mem_catMaps_entryIf, List.mem_range]

theorem mem_highEntries (d : Nat → Bias) (n w : Nat) (e : Entry) :
    e ∈ highEntries d n w ↔
      (w + 1 ≤ e.1 ∧ e.1 < w + 1 + (n - (w + 1))) ∧ qd d n w e.1 ≠ 0 ∧ e.2 = qd d n w e.1 := by
  rw [highEntries, mem_catMaps_entryIf, List.mem_range'_1]

theorem sorted_nb_dense (d : Nat → Bias) (n w : Nat) :
    SortedNb (lowEntries d n w ++ highEntries d n w) := by
  rw [SortedNb, List.pairwise_append]
  refine ⟨sorted_catMaps_entryIf _ _ (List.pairwise_lt_range w),
    sorted_catMaps_entryIf _ _ (List.pairwise_lt_range' _ _), ?_⟩
  intro a ha c hc
  have h1 := ((mem_lowEntries d n w a).mp ha).1
  have h2 := ((mem_highEntries d n w c).mp hc).1.1
  show a.1 < c.1
  omega

theorem valid_fromDense (d : Nat → Bias) (n : Nat) (ig : Bool) : Valid (fromDense d n ig) := by
  have hlen : (fromDense d n ig).length = n := length_fromDense d n ig
  refine ⟨?_, ?_, ?_, ?_⟩
  · intro w
    by_cases hw : w < n
    · rw [nb_fromDense d n ig w hw]
      exact sorted_nb_dense d n w
    · rw [nb_out_of_range _ _ (by rw [hlen]; omega)]
      exact List.Pairwise.nil
  · intro w e he
    rw [num_variables, hlen]
    by_cases hw : w < n
    · rw [nb_fromDense d n ig w hw] at he
      rcases List.mem_append.mp he with h | h
      · have := (mem_lowEntries d n w e).mp h
        omega
      · have := (mem_highEntries d n w e).mp h
        omega
    · rw [nb_out_of_range _ _ (by rw [hlen]; omega)] at he
      cases he
  · intro w e he
    by_cases hw : w < n
    · rw [nb_fromDense d n ig w hw] at he
      rcases List.mem_append.mp he with h | h
      · have := (mem_lowEntries d n w e).mp h
        omega
      · have := (mem_highEntries d n w e).mp h
        omega
    · rw [nb_out_of_range _ _ (by rw [hlen]; omega)] at he
      cases he
  · intro w e he
    by_cases hw : w < n
    · rw [nb_fromDense d n ig w hw] at he
      rcases List.mem_append.mp he with h | h
      · obtain ⟨h1, h2, h3⟩ := (mem_lowEntries d n w e).mp h
        have he1 : e.1 < n := by omega
        rw [nb_fromDense d n ig e.1 he1]
        apply List.mem_append.mpr
        right
        apply (mem_highEntries d n e.1 (w, e.2)).mpr
        exact ⟨⟨by omega, by omega⟩, h2, h3⟩
      · obtain ⟨h1, h2, h3⟩ := (mem_highEntries d n w e).mp h
        have he1 : e.1 < n := by omega
        rw [nb_fromDense d n ig e.1 he1]
        apply List.mem_append.mpr
        left
        apply (mem_lowEntries d n e.1 (w, e.2)).mpr
        exact ⟨by omega, h2, h3⟩
    · rw [nb_out_of_range _ _ (by rw [hlen]; omega)] at he
      cases he

/-- Every reachable state satisfies the data-structure invariant. -/
theorem reachable_valid (bqm : AdjVectorBQM) (h : Reachable bqm) : Valid bqm := by
  induction h with
  | default_ctor => exact valid_nil
  | dense_ctor d n ig => exact valid_fromDense d n ig
  | copy_ctor hr ih =>
    rw [copyOf_eq]
    exact ih
  | step op hr hop ih =>
    cases op with
    | addVar => exact valid_add _ ih
    | popVar => exact valid_pop _ ih
    | setLin v b => exact valid_set_linear _ _ _ ih
    | setQuad u v b => exact valid_set_quadratic _ _ _ _ ih hop.1 hop.2.1 hop.2.2
    | removeInt u v => exact valid_remove _ _ _ ih

/-! ## Interaction counting -/

theorem get_quadratic_of_mem (bqm : AdjVectorBQM) (u v : Nat) (b : Bias)
    (hs : SortedNb (neighborhood bqm u)) (hm : (v, b) ∈ neighborhood bqm u) :
    get_quadratic bqm u v = (b, true) := by
  rw [get_quadratic]
  exact gqCore_mem _ _ _ hs hm

theorem get_quadratic_of_not_mem (bqm : AdjVectorBQM) (u v : Nat)
    (hs : SortedNb (neighborhood bqm u)) (hm : v ∉ keys (neighborhood bqm u)) :
    get_quadratic bqm u v = (0, false) := by
  rw [get_quadratic]
  exact gqCore_not_mem _ _ hs hm

theorem slen_set_quadratic (bqm : AdjVectorBQM) (u v : Nat) (b : Bias) (h : Valid bqm)
    (hu : u < bqm.length) (hv : v < bqm.length) (huv : u ≠ v) :
    (((set_quadratic bqm u v b).1).map (fun p => p.1.length)).sum
      = if v ∈ keys (neighborhood bqm u)
        then (bqm.map (fun p => p.1.length)).sum
        else (bqm.map (fun p => p.1.length)).sum + 2 := by
  have h1 := sum_map_modifyAt (fun p => p.1.length) bqm u
    (fun p => (nbUpdate p.1 v b (nbFound (neighborhood bqm u) v), p.2)) hu
  have hlen1 : (modifyAt bqm u
      (fun p => (nbUpdate p.1 v b (nbFound (neighborhood bqm u) v), p.2))).length
      = bqm.length := modifyAt_length _ _ _
  have h2 := sum_map_modifyAt (fun p => p.1.length)
    (modifyAt bqm u (fun p => (nbUpdate p.1 v b (nbFound (neighborhood bqm u) v), p.2))) v
    (fun p => (nbUpdate p.1 u b (nbFound (neighborhood bqm u) v), p.2))
    (by rw [hlen1]; exact hv)
  have hgetv : (modifyAt bqm u
      (fun p => (nbUpdate p.1 v b (nbFound (neighborhood bqm u) v), p.2))).getD v ([], 0)
      = bqm.getD v ([], 0) := getD_modifyAt_ne _ _ _ _ _ (Ne.symm huv)
  rw [hgetv] at h2
  by_cases hex : v ∈ keys (neighborhood bqm u)
  · obtain ⟨b0, hb0⟩ := (mem_keys_iff _ _).mp hex
    have hbv : (u, b0) ∈ neighborhood bqm v := h.symm u (v, b0) hb0
    have hexB : nbFound (neighborhood bqm u) v = true :=
      nbFound_of_mem _ _ _ (h.sorted u) hb0
    rw [hexB] at h1 h2
    dsimp only at h1 h2
    have lu := (nbUpdate_true_spec (neighborhood bqm u) v b b0 (h.sorted u) hb0).2.1
    have lv := (nbUpdate_true_spec (neighborhood bqm v) u b b0 (h.sorted v) hbv).2.1
    rw [if_pos hex]
    rw [set_quadratic]
    simp only [hexB]
    simp only [neighborhood] at lu lv
    omega
  · have hex2 : u ∉ keys (neighborhood bqm v) := valid_not_found bqm h u v hex
    have hexB : nbFound (neighborhood bqm u) v = false :=
      nbFound_of_not_mem _ _ (h.sorted u) hex
    rw [hexB] at h1 h2
    dsimp only at h1 h2
    have lu := (nbUpdate_false_spec (neighborhood bqm u) v b (h.sorted u) hex).2.1
    have lv := (nbUpdate_false_spec (neighborhood bqm v) u b (h.sorted v) hex2).2.1
    rw [if_neg hex]
    rw [set_quadratic]
    simp only [hexB]
    simp only [neighborhood] at lu lv
    omega

theorem num_interactions_set_quadratic (bqm : AdjVectorBQM) (u v : Nat) (b : Bias)
    (h : Valid bqm) (hu : u < bqm.length) (hv : v < bqm.length) (huv : u ≠ v) :
    num_interactions (set_quadratic bqm u v b).1
      = if v ∈ keys (neighborhood bqm u)
        then num_interactions bqm
        else num_interactions bqm + 1 := by
  rw [num_interactions_eq, num_interactions_eq, slen_set_quadratic bqm u v b h hu hv huv]
  by_cases hex : v ∈ keys (neighborhood bqm u)
  · rw [if_pos hex, if_pos hex]
  · rw [if_neg hex, if_neg hex, Nat.add_div_right _ (by omega)]

theorem slen_remove_found (bqm : AdjVectorBQM) (u v : Nat) (b0 : Bias) (h : Valid bqm)
    (hb0 : (v, b0) ∈ neighborhood bqm u) :
    (((remove_interaction bqm u v).1).map (fun p => p.1.length)).sum + 2
      = (bqm.map (fun p => p.1.length)).sum := by
  have hbv : (u, b0) ∈ neighborhood bqm v := h.symm u (v, b0) hb0
  have huv : u ≠ v := Ne.symm (h.noSelf u (v, b0) hb0)
  have hu : u < bqm.length := by
    by_contra hc
    rw [nb_out_of_range _ _ (Nat.le_of_not_lt hc)] at hb0
    cases hb0
  have hv : v < bqm.length := by
    by_contra hc
    rw [nb_out_of_range _ _ (Nat.le_of_not_lt hc)] at hbv
    cases hbv
  have hexB : nbFound (neighborhood bqm u) v = true := nbFound_of_mem _ _ _ (h.sorted u) hb0
  have h1 := sum_map_modifyAt (fun p => p.1.length) bqm u
    (fun p => (nbEraseLb p.1 v, p.2)) hu
  have hlen1 : (modifyAt bqm u (fun p => (nbEraseLb p.1 v, p.2))).length = bqm.length :=
    modifyAt_length _ _ _
  have h2 := sum_map_modifyAt (fun p => p.1.length)
    (modifyAt bqm u (fun p => (nbEraseLb p.1 v, p.2))) v
    (fun p => (nbEraseLb p.1 u, p.2)) (by rw [hlen1]; exact hv)
  have hgetv : (modifyAt bqm u (fun p => (nbEraseLb p.1 v, p.2))).getD v ([], 0)
      = bqm.getD v ([], 0) := getD_modifyAt_ne _ _ _ _ _ (Ne.symm huv)
  rw [hgetv] at h2
  dsimp only at h1 h2
  have lu := (nbEraseLb_spec (neighborhood bqm u) v b0 (h.sorted u) hb0).2.1
  have lv := (nbEraseLb_spec (neighborhood bqm v) u b0 (h.sorted v) hbv).2.1
  rw [remove_interaction_found _ _ _ hexB]
  simp only
  simp only [neighborhood] at lu lv
  omega

theorem num_interactions_remove_found (bqm : AdjVectorBQM) (u v : Nat) (b0 : Bias)
    (h : Valid bqm) (hb0 : (v, b0) ∈ neighborhood bqm u) :
    num_interactions (remove_interaction bqm u v).1 + 1 = num_interactions bqm := by
  rw [num_interactions_eq, num_interactions_eq,
    ← slen_remove_found bqm u v b0 h hb0, Nat.add_div_right _ (by omega)]

/-! ## Degree sums and parity (for the degree/interaction consistency claim) -/

theorem list_sum_getD {α : Type} (l : List α) (f : α → Nat) (d : α) :
    (l.map f).sum = ∑ i in Finset.range l.length, f (l.getD i d) := by
  induction l with
  | nil => simp
  | cons x xs ih =>
    rw [List.map_cons, List.sum_cons, List.length_cons, Finset.sum_range_succ']
    simp only [List.getD_cons_succ, List.getD_cons_zero]
    rw [← ih]
    omega

theorem sum_degrees_eq_slen (bqm : AdjVectorBQM) :
    ((List.range (num_variables bqm)).map (degree bqm)).sum
      = (bqm.map (fun p => p.1.length)).sum := by
  rw [list_sum_getD bqm (fun p => p.1.length) ([], 0), list_sum_getD _ (degree bqm) 0]
  simp only [List.length_range]
  rw [num_variables]
  apply Finset.sum_congr rfl
  intro i hi
  rw [Finset.mem_range] at hi
  rw [List.getD_eq_getElem _ _ (by simpa using hi)]
  simp [degree, neighborhood]

/-- The set of ordered incidences `(u, x)` with `x` a neighbor of `u`. -/
def incidences (bqm : AdjVectorBQM) : Finset (Nat × Nat) :=
  (Finset.range bqm.length).biUnion
    (fun u => ({u} : Finset Nat) ×ˢ (keys (neighborhood bqm u)).toFinset)

theorem mem_incidences (bqm : AdjVectorBQM) (p : Nat × Nat) :
    p ∈ incidences bqm ↔ p.1 < bqm.length ∧ p.2 ∈ keys (neighborhood bqm p.1) := by
  rw [incidences, Finset.mem_biUnion]
  constructor
  · rintro ⟨u, hu, hp⟩
    rw [Finset.mem_product, Finset.mem_singleton] at hp
    obtain ⟨h1, h2⟩ := hp
    rw [Finset.mem_range] at hu
    subst h1
    exact ⟨hu, List.mem_toFinset.mp h2⟩
  · rintro ⟨h1, h2⟩
    refine ⟨p.1, Finset.mem_range.mpr h1, ?_⟩
    rw [Finset.mem_product, Finset.mem_singleton]
    exact ⟨rfl, List.mem_toFinset.mpr h2⟩

theorem card_incidences (bqm : AdjVectorBQM) (h : Valid bqm) :
    (incidences bqm).card = ∑ u in Finset.range bqm.length, degree bqm u := by
  rw [incidences, Finset.card_biUnion]
  · apply Finset.sum_congr rfl
    intro u hu
    rw [Finset.card_product, Finset.card_singleton, Nat.one_mul,
      List.toFinset_card_of_nodup (sorted_keys_nodup _ (h.sorted u))]
    rw [keys, List.length_map]
    rfl
  · intro x hx y hy hxy
    rw [Finset.disjoint_left]
    intro p hp hq
    rw [Finset.mem_product, Finset.mem_singleton] at hp hq
    exact hxy (hp.1 ▸ hq.1)

theorem even_card_incidences (bqm : AdjVectorBQM) (h : Valid bqm) :
    Even (incidences bqm).card := by
  have hswap : ∀ p : Nat × Nat, p ∈ incidences bqm → (p.2, p.1) ∈ incidences bqm := by
    intro p hp
    rw [mem_incidences] at hp ⊢
    obtain ⟨h1, h2⟩ := hp
    obtain ⟨b, hb⟩ := (mem_keys_iff _ _).mp h2
    have hs := h.symm p.1 (p.2, b) hb
    refine ⟨?_, (mem_keys_iff _ _).mpr ⟨b, hs⟩⟩
    have := h.bounded p.1 (p.2, b) hb
    rw [num_variables] at this
    exact this
  have hirr : ∀ p : Nat × Nat, p ∈ incidences bqm → p.1 ≠ p.2 := by
    intro p hp
    rw [mem_incidences] at hp
    obtain ⟨b, hb⟩ := (mem_keys_iff _ _).mp hp.2
    exact fun hc => (h.noSelf p.1 (p.2, b) hb) (by rw [hc])
  have hcards : ((incidences bqm).filter (fun p => ¬ p.1 < p.2)).card
      = ((incidences bqm).filter (fun p => p.1 < p.2)).card := by
    apply Finset.card_bij (fun p _ => (p.2, p.1))
    · intro a ha
      rw [Finset.mem_filter] at ha ⊢
      have h1 := hswap a ha.1
      refine ⟨h1, ?_⟩
      have := hirr a ha.1
      have h2 := ha.2
      simp only
      omega
    · intro a ha c hc hac
      have h1 : a.2 = c.2 := congrArg Prod.fst hac
      have h2 : a.1 = c.1 := congrArg Prod.snd hac
      obtain ⟨a1, a2⟩ := a
      obtain ⟨c1, c2⟩ := c
      simp only at h1 h2
      rw [h1, h2]
    · intro q hq
      rw [Finset.mem_filter] at hq
      refine ⟨(q.2, q.1), ?_, rfl⟩
      rw [Finset.mem_filter]
      refine ⟨hswap q hq.1, ?_⟩
      simp only
      omega
  have htotal := Finset.filter_card_add_filter_neg_card_eq_card
    (s := incidences bqm) (fun p : Nat × Nat => p.1 < p.2)
  refine ⟨((incidences bqm).filter (fun p => p.1 < p.2)).card, ?_⟩
  omega

theorem slen_even (bqm : AdjVectorBQM) (h : Valid bqm) :
    Even ((bqm.map (fun p => p.1.length)).sum) := by
  have h1 := even_card_incidences bqm h
  rw [card_incidences bqm h] at h1
  suffices hs : (bqm.map (fun p => p.1.length)).sum
      = ∑ u in Finset.range bqm.length, degree bqm u by
    rw [hs]
    exact h1
  rw [← sum_degrees_eq_slen bqm, list_sum_getD _ (degree bqm) 0]
  simp only [List.length_range]
  rw [num_variables]
  apply Finset.sum_congr rfl
  intro i hi
  rw [Finset.mem_range] at hi
  rw [List.getD_eq_getElem _ _ (by simpa using hi)]
  simp

/-! ## Operation-level characterizations used by the claims -/

theorem get_quadratic_found_iff (bqm : AdjVectorBQM) (u v : Nat)
    (hs : SortedNb (neighborhood bqm u)) :
    (get_quadratic bqm u v).2 = true ↔ v ∈ keys (neighborhood bqm u) := by
  by_cases hex : v ∈ keys (neighborhood bqm u)
  · obtain ⟨b, hb⟩ := (mem_keys_iff _ _).mp hex
    rw [get_quadratic_of_mem bqm u v b hs hb]
    simp [hex]
  · rw [get_quadratic_of_not_mem bqm u v hs hex]
    simp [hex]

theorem mem_nb_set_quadratic_u (bqm : AdjVectorBQM) (u v : Nat) (b : Bias) (h : Valid bqm)
    (hu : u < bqm.length) (hv : v < bqm.length) (huv : u ≠ v) (e : Entry) :
    e ∈ neighborhood (set_quadratic bqm u v b).1 u ↔
      e = (v, b) ∨ (e ∈ neighborhood bqm u ∧ e.1 ≠ v) := by
  by_cases hex : v ∈ keys (neighborhood bqm u)
  · obtain ⟨b0, hb0⟩ := (mem_keys_iff _ _).mp hex
    have hexB : nbFound (neighborhood bqm u) v = true :=
      nbFound_of_mem _ _ _ (h.sorted u) hb0
    rw [nb_set_quadratic_u _ _ _ _ hu huv, hexB]
    exact (nbUpdate_true_spec (neighborhood bqm u) v b b0 (h.sorted u) hb0).2.2 e
  · have hexB : nbFound (neighborhood bqm u) v = false :=
      nbFound_of_not_mem _ _ (h.sorted u) hex
    rw [nb_set_quadratic_u _ _ _ _ hu huv, hexB]
    rw [(nbUpdate_false_spec (neighborhood bqm u) v b (h.sorted u) hex).2.2 e]
    constructor
    · rintro (rfl | hmem)
      · exact Or.inl rfl
      · refine Or.inr ⟨hmem, ?_⟩
        intro hc
        exact hex ((mem_keys_iff _ _).mpr ⟨e.2, by rw [← hc]; exact hmem⟩)
    · rintro (rfl | ⟨hmem, -⟩)
      · exact Or.inl rfl
      · exact Or.inr hmem

theorem mem_nb_set_quadratic_v (bqm : AdjVectorBQM) (u v : Nat) (b : Bias) (h : Valid bqm)
    (hu : u < bqm.length) (hv : v < bqm.length) (huv : u ≠ v) (e : Entry) :
    e ∈ neighborhood (set_quadratic bqm u v b).1 v ↔
      e = (u, b) ∨ (e ∈ neighborhood bqm v ∧ e.1 ≠ u) := by
  by_cases hex : v ∈ keys (neighborhood bqm u)
  · obtain ⟨b0, hb0⟩ := (mem_keys_iff _ _).mp hex
    have hbv : (u, b0) ∈ neighborhood bqm v := h.symm u (v, b0) hb0
    have hexB : nbFound (neighborhood bqm u) v = true :=
      nbFound_of_mem _ _ _ (h.sorted u) hb0
    rw [nb_set_quadratic_v _ _ _ _ hv huv, hexB]
    exact (nbUpdate_true_spec (neighborhood bqm v) u b b0 (h.sorted v) hbv).2.2 e
  · have hex2 : u ∉ keys (neighborhood bqm v) := valid_not_found bqm h u v hex
    have hexB : nbFound (neighborhood bqm u) v = false :=
      nbFound_of_not_mem _ _ (h.sorted u) hex
    rw [nb_set_quadratic_v _ _ _ _ hv huv, hexB]
    rw [(nbUpdate_false_spec (neighborhood bqm v) u b (h.sorted v) hex2).2.2 e]
    constructor
    · rintro (rfl | hmem)
      · exact Or.inl rfl
      · refine Or.inr ⟨hmem, ?_⟩
        intro hc
        exact hex2 ((mem_keys_iff _ _).mpr ⟨e.2, by rw [← hc]; exact hmem⟩)
    · rintro (rfl | ⟨hmem, -⟩)
      · exact Or.inl rfl
      · exact Or.inr hmem

theorem mem_nb_remove_u (bqm : AdjVectorBQM) (u v : Nat) (b0 : Bias) (h : Valid bqm)
    (hb0 : (v, b0) ∈ neighborhood bqm u) (e : Entry) :
    e ∈ neighborhood (remove_interaction bqm u v).1 u ↔
      (e ∈ neighborhood bqm u ∧ e.1 ≠ v) := by
  have huv : u ≠ v := Ne.symm (h.noSelf u (v, b0) hb0)
  have hu : u < bqm.length := by
    by_contra hc
    rw [nb_out_of_range _ _ (Nat.le_of_not_lt hc)] at hb0
    cases hb0
  have hexB : nbFound (neighborhood bqm u) v = true := nbFound_of_mem _ _ _ (h.sorted u) hb0
  rw [nb_remove_interaction_found_u _ _ _ hexB hu huv]
  exact (nbEraseLb_spec (neighborhood bqm u) v b0 (h.sorted u) hb0).2.2 e

theorem mem_nb_remove_v (bqm : AdjVectorBQM) (u v : Nat) (b0 : Bias) (h : Valid bqm)
    (hb0 : (v, b0) ∈ neighborhood bqm u) (e : Entry) :
    e ∈ neighborhood (remove_interaction bqm u v).1 v ↔
      (e ∈ neighborhood bqm v ∧ e.1 ≠ u) := by
  have hbv : (u, b0) ∈ neighborhood bqm v := h.symm u (v, b0) hb0
  have huv : u ≠ v := Ne.symm (h.noSelf u (v, b0) hb0)
  have hv : v < bqm.length := by
    by_contra hc
    rw [nb_out_of_range _ _ (Nat.le_of_not_lt hc)] at hbv
    cases hbv
  have hexB : nbFound (neighborhood bqm u) v = true := nbFound_of_mem _ _ _ (h.sorted u) hb0
  rw [nb_remove_interaction_found_v _ _ _ hexB hv huv]
  exact (nbEraseLb_spec (neighborhood bqm v) u b0 (h.sorted v) hbv).2.2 e

theorem mem_nb_pop (bqm : AdjVectorBQM) (h : Valid bqm) (w : Nat)
    (hw : w < bqm.length - 1) (e : Entry) :
    e ∈ neighborhood (pop_variable bqm).1 w ↔
      e ∈ neighborhood bqm w ∧ e.1 ≠ bqm.length - 1 := by
  rw [nb_pop_variable bqm w (h.sorted _) hw]
  by_cases hk : w ∈ keys (neighborhood bqm (bqm.length - 1))
  · rw [if_pos hk]
    obtain ⟨bw, hbw⟩ := (mem_keys_iff _ _).mp hk
    have hvw : (bqm.length - 1, bw) ∈ neighborhood bqm w :=
      h.symm (bqm.length - 1) (w, bw) hbw
    exact (nbEraseLb_spec _ _ bw (h.sorted w) hvw).2.2 e
  · rw [if_neg hk]
    constructor
    · intro he
      refine ⟨he, ?_⟩
      intro hc
      apply hk
      apply (mem_keys_iff _ _).mpr
      refine ⟨e.2, ?_⟩
      have hx := h.symm w e he
      rw [hc] at hx
      exact hx
    · exact fun he => he.1

theorem pop_add_eq (bqm : AdjVectorBQM) : (pop_variable (add_variable bqm).1).1 = bqm := by
  rw [pop_variable]
  simp only
  have hnb : neighborhood (add_variable bqm).1 ((add_variable bqm).1.length - 1) = [] := by
    rw [length_add_variable]
    simp only [Nat.add_sub_cancel]
    rw [nb_add_variable, nb_out_of_range _ _ (le_refl _)]
  rw [hnb]
  simp only [List.foldl_nil]
  rw [add_variable]
  simp

theorem dense_nonzero_edge (d : Nat → Bias) (n i j : Nat) (ig : Bool)
    (hi : i < n) (hj : j < n) (hij : i ≠ j)
    (hq : d (i * n + j) + d (j * n + i) ≠ 0) :
    get_quadratic (fromDense d n ig) i j = (d (i * n + j) + d (j * n + i), true) := by
  have hq' : qd d n i j ≠ 0 := hq
  have hsort : SortedNb (neighborhood (fromDense d n ig) i) := (valid_fromDense d n ig).sorted i
  rcases Nat.lt_or_ge i j with hlt | hge
  · have hmem : (j, qd d n i j) ∈ neighborhood (fromDense d n ig) i := by
      rw [nb_fromDense d n ig i hi]
      apply List.mem_append.mpr
      right
      apply (mem_highEntries d n i (j, qd d n i j)).mpr
      exact ⟨⟨by omega, by omega⟩, hq', rfl⟩
    exact get_quadratic_of_mem _ _ _ _ hsort hmem
  · have hlt : j < i := by omega
    have hmem : (j, qd d n j i) ∈ neighborhood (fromDense d n ig) i := by
      rw [nb_fromDense d n ig i hi]
      apply List.mem_append.mpr
      left
      apply (mem_lowEntries d n i (j, qd d n j i)).mpr
      exact ⟨hlt, by rw [qd_comm]; exact hq', rfl⟩
    have hgq := get_quadratic_of_mem _ _ _ _ hsort hmem
    rw [hgq, qd_comm d n j i]
    rfl

theorem dense_zero_no_edge (d : Nat → Bias) (n i j : Nat) (ig : Bool)
    (hi : i < n) (hj : j < n) (hij : i ≠ j)
    (hq : d (i * n + j) + d (j * n + i) = 0) :
    get_quadratic (fromDense d n ig) i j = (0, false) := by
  have hq' : qd d n i j = 0 := hq
  have hsort : SortedNb (neighborhood (fromDense d n ig) i) := (valid_fromDense d n ig).sorted i
  apply get_quadratic_of_not_mem _ _ _ hsort
  intro hc
  obtain ⟨b, hb⟩ := (mem_keys_iff _ _).mp hc
  rw [nb_fromDense d n ig i hi] at hb
  rcases List.mem_append.mp hb with hmem | hmem
  · obtain ⟨-, h2, -⟩ := (mem_lowEntries d n i (j, b)).mp hmem
    rw [qd_comm] at h2
    exact h2 hq'
  · obtain ⟨-, h2, -⟩ := (mem_highEntries d n i (j, b)).mp hmem
    exact h2 hq'

/-! ## A concrete reachable state (spec §8 scenario prefix) -/

/-- Three variables, edges `{0,1}` with bias 2 and `{1,2}` with bias -1. -/
def sampleBQM : AdjVectorBQM :=
  applyOp (applyOp (applyOp (applyOp (applyOp [] Op.addVar) Op.addVar) Op.addVar)
    (Op.setQuad 0 1 2)) (Op.setQuad 1 2 (-1))

theorem sample_reachable : Reachable sampleBQM :=
  Reachable.step _ (Reachable.step _ (Reachable.step _ (Reachable.step _
    (Reachable.step _ Reachable.default_ctor trivial) trivial) trivial)
    ⟨by decide, by decide, by decide⟩) ⟨by decide, by decide, by decide⟩

/-! ## The claims -/

/-- C1: Symmetry invariant — in every state reachable from any constructor
(default, copy, or dense) by any sequence of public operations whose caller
contracts hold, for every pair of distinct variables `u`, `v`,
`get_quadratic(u, v)` and `get_quadratic(v, u)` return the same
`(bias, found)` pair; preservation by every mutating operation is subsumed by
quantifying over all reachable states. -/
theorem C1_symmetry (bqm : AdjVectorBQM) (h : Reachable bqm) (u v : Nat)
    (hu : u < num_variables bqm) (hv : v < num_variables bqm) (huv : u ≠ v) :
    get_quadratic bqm u v = get_quadratic bqm v u := by
  have hval := reachable_valid bqm h
  by_cases hex : v ∈ keys (neighborhood bqm u)
  · obtain ⟨b, hb⟩ := (mem_keys_iff _ _).mp hex
    rw [get_quadratic_of_mem bqm u v b (hval.sorted u) hb,
      get_quadratic_of_mem bqm v u b (hval.sorted v) (hval.symm u (v, b) hb)]
  · rw [get_quadratic_of_not_mem bqm u v (hval.sorted u) hex,
      get_quadratic_of_not_mem bqm v u (hval.sorted v) (valid_not_found bqm hval u v hex)]

theorem C1_symmetry_witness :
    get_quadratic sampleBQM 0 1 = get_quadratic sampleBQM 1 0 :=
  C1_symmetry sampleBQM sample_reachable 0 1 (by decide) (by decide) (by decide)

/-- C2: Neighborhood well-formedness invariant — in every reachable state,
the neighborhood of every variable is strictly increasing by neighbor index
(hence
its list of neighbor indices has no duplicates) and never contains the
own index of the variable. -/
theorem C2_sorted_no_self (bqm : AdjVectorBQM) (h : Reachable bqm) (u : Nat) :
    SortedNb (neighborhood bqm u) ∧ (keys (neighborhood bqm u)).Nodup ∧
      ∀ e ∈ neighborhood bqm u, e.1 ≠ u := by
  have hval := reachable_valid bqm h
  exact ⟨hval.sorted u, sorted_keys_nodup _ (hval.sorted u), hval.noSelf u⟩

theorem C2_sorted_no_self_witness :
    SortedNb (neighborhood sampleBQM 1) ∧ (keys (neighborhood sampleBQM 1)).Nodup ∧
      ∀ e ∈ neighborhood sampleBQM 1, e.1 ≠ 1 :=
  C2_sorted_no_self sampleBQM sample_reachable 1

/-- C7: `get_quadratic` result semantics — on a valid state, for distinct
valid indices, it returns `(b, true)` exactly when the edge is stored with
bias `b`, and `(0, false)` when no edge exists.  (The call is modelled as a
pure function of the state, which is the embedding of its `const`-ness: it
cannot mutate the structure.) -/
theorem C7_get_quadratic (bqm : AdjVectorBQM) (h : Valid bqm) (u v : Nat)
    (hu : u < num_variables bqm) (hv : v < num_variables bqm) (huv : u ≠ v) :
    (∀ b, (v, b) ∈ neighborhood bqm u → get_quadratic bqm u v = (b, true)) ∧
    (v ∉ keys (neighborhood bqm u) → get_quadratic bqm u v = (0, false)) :=
  ⟨fun b hb => get_quadratic_of_mem bqm u v b (h.sorted u) hb,
   fun hex => get_quadratic_of_not_mem bqm u v (h.sorted u) hex⟩

theorem C7_get_quadratic_witness :
    ((∀ b, (1, b) ∈ neighborhood sampleBQM 0 → get_quadratic sampleBQM 0 1 = (b, true)) ∧
      (1 ∉ keys (neighborhood sampleBQM 0) → get_quadratic sampleBQM 0 1 = (0, false))) ∧
    ((∀ b, (2, b) ∈ neighborhood sampleBQM 0 → get_quadratic sampleBQM 0 2 = (b, true)) ∧
      (2 ∉ keys (neighborhood sampleBQM 0) → get_quadratic sampleBQM 0 2 = (0, false))) :=
  ⟨C7_get_quadratic sampleBQM (reachable_valid sampleBQM sample_reachable) 0 1
      (by decide) (by decide) (by decide),
   C7_get_quadratic sampleBQM (reachable_valid sampleBQM sample_reachable) 0 2
      (by decide) (by decide) (by decide)⟩

/-- C8: Degree/interaction consistency — in every reachable state,
`num_interactions() * 2` equals the sum of `degree(v)` over all variables. -/
theorem C8_degree_consistency (bqm : AdjVectorBQM) (h : Reachable bqm) :
    num_interactions bqm * 2 = ((List.range (num_variables bqm)).map (degree bqm)).sum := by
  have hval := reachable_valid bqm h
  rw [num_interactions_eq, sum_degrees_eq_slen,
    Nat.div_two_mul_two_of_even (slen_even bqm hval)]

theorem C8_degree_consistency_witness :
    num_interactions sampleBQM * 2
      = ((List.range (num_variables sampleBQM)).map (degree sampleBQM)).sum :=
  C8_degree_consistency sampleBQM sample_reachable

/-- C9: Add/pop round-trip — from any valid state, `add_variable` followed
immediately by `pop_variable` restores `num_variables` and all pre-existing
linear biases, degrees and neighborhoods (in fact the state is
restored exactly, since the fresh variable has an empty neighborhood). -/
theorem C9_add_pop (bqm : AdjVectorBQM) (h : Valid bqm) :
    num_variables (pop_variable (add_variable bqm).1).1 = num_variables bqm ∧
    (∀ w, get_linear (pop_variable (add_variable bqm).1).1 w = get_linear bqm w) ∧
    (∀ w, degree (pop_variable (add_variable bqm).1).1 w = degree bqm w) ∧
    (∀ w, neighborhood (pop_variable (add_variable bqm).1).1 w = neighborhood bqm w) := by
  rw [pop_add_eq]
  exact ⟨rfl, fun w => rfl, fun w => rfl, fun w => rfl⟩

theorem C9_add_pop_witness :
    num_variables (pop_variable (add_variable sampleBQM).1).1 = num_variables sampleBQM ∧
    (∀ w, get_linear (pop_variable (add_variable sampleBQM).1).1 w = get_linear sampleBQM w) ∧
    (∀ w, degree (pop_variable (add_variable sampleBQM).1).1 w = degree sampleBQM w) ∧
    (∀ w, neighborhood (pop_variable (add_variable sampleBQM).1).1 w
      = neighborhood sampleBQM w) :=
  C9_add_pop sampleBQM (reachable_valid sampleBQM sample_reachable)

/-- C5: `pop_variable` postcondition — on a valid nonempty state it removes
exactly the last variable: the count drops by one, no remaining neighborhood
mentions the removed index, linear biases and edges between remaining
variables are untouched, and the call returns the new `num_variables`. -/
theorem C5_pop_variable (bqm : AdjVectorBQM) (h : Valid bqm)
    (hpos : 0 < num_variables bqm) :
    num_variables (pop_variable bqm).1 = num_variables bqm - 1 ∧
    (pop_variable bqm).2 = num_variables bqm - 1 ∧
    (∀ w, w < num_variables bqm - 1 →
      ∀ e ∈ neighborhood (pop_variable bqm).1 w, e.1 ≠ num_variables bqm - 1) ∧
    (∀ w, w < num_variables bqm - 1 →
      get_linear (pop_variable bqm).1 w = get_linear bqm w) ∧
    (∀ x y, x < num_variables bqm - 1 → y < num_variables bqm - 1 →
      get_quadratic (pop_variable bqm).1 x y = get_quadratic bqm x y) := by
  refine ⟨?_, ?_, ?_, ?_, ?_⟩
  · rw [num_variables, num_variables, length_pop_variable]
  · rw [pop_variable_snd, num_variables]
  · intro w hw e he
    exact ((mem_nb_pop bqm h w hw e).mp he).2
  · intro w hw
    exact linear_pop_variable bqm w hw
  · intro x y hx hy
    have hy' : y < bqm.length - 1 := hy
    rw [get_quadratic, get_quadratic]
    apply gqCore_congr _ _ _ ((valid_pop bqm h).sorted x) (h.sorted x)
    intro c
    rw [mem_nb_pop bqm h x hx (y, c)]
    constructor
    · exact fun hc => hc.1
    · intro hc
      refine ⟨hc, ?_⟩
      show y ≠ bqm.length - 1
      omega

theorem C5_pop_variable_witness :
    num_variables (pop_variable sampleBQM).1 = num_variables sampleBQM - 1 ∧
    (pop_variable sampleBQM).2 = num_variables sampleBQM - 1 ∧
    (∀ w, w < num_variables sampleBQM - 1 →
      ∀ e ∈ neighborhood (pop_variable sampleBQM).1 w, e.1 ≠ num_variables sampleBQM - 1) ∧
    (∀ w, w < num_variables sampleBQM - 1 →
      get_linear (pop_variable sampleBQM).1 w = get_linear sampleBQM w) ∧
    (∀ x y, x < num_variables sampleBQM - 1 → y < num_variables sampleBQM - 1 →
      get_quadratic (pop_variable sampleBQM).1 x y = get_quadratic sampleBQM x y) :=
  C5_pop_variable sampleBQM (reachable_valid sampleBQM sample_reachable) (by decide)

/-- C3: `set_quadratic` postcondition — on a valid state with distinct valid
indices: both directed reads return `(b, true)` afterwards; the interaction
count is unchanged when the edge existed and grows by one when it did not;
every other edge, every linear bias and the variable count are unchanged; the
call returns `true`; and a second identical call changes neither the
interaction count nor the stored bias. -/
theorem C3_set_quadratic (bqm : AdjVectorBQM) (u v : Nat) (b : Bias) (h : Valid bqm)
    (hu : u < num_variables bqm) (hv : v < num_variables bqm) (huv : u ≠ v) :
    get_quadratic (set_quadratic bqm u v b).1 u v = (b, true) ∧
    get_quadratic (set_quadratic bqm u v b).1 v u = (b, true) ∧
    num_interactions (set_quadratic bqm u v b).1
      = (if (get_quadratic bqm u v).2 = true then num_interactions bqm
         else num_interactions bqm + 1) ∧
    (∀ x y : Nat, ¬(x = u ∧ y = v) → ¬(x = v ∧ y = u) →
      get_quadratic (set_quadratic bqm u v b).1 x y = get_quadratic bqm x y) ∧
    (∀ w, get_linear (set_quadratic bqm u v b).1 w = get_linear bqm w) ∧
    num_variables (set_quadratic bqm u v b).1 = num_variables bqm ∧
    (set_quadratic bqm u v b).2 = true ∧
    num_interactions (set_quadratic (set_quadratic bqm u v b).1 u v b).1
      = num_interactions (set_quadratic bqm u v b).1 ∧
    get_quadratic (set_quadratic (set_quadratic bqm u v b).1 u v b).1 u v = (b, true) := by
  have hu' : u < bqm.length := hu
  have hv' : v < bqm.length := hv
  have hS : Valid (set_quadratic bqm u v b).1 := valid_set_quadratic bqm u v b h hu' hv' huv
  have hmemu := mem_nb_set_quadratic_u bqm u v b h hu' hv' huv
  have hmemv := mem_nb_set_quadratic_v bqm u v b h hu' hv' huv
  have hSu : u < ((set_quadratic bqm u v b).1).length := by
    rw [length_set_quadratic]
    exact hu'
  have hSv : v < ((set_quadratic bqm u v b).1).length := by
    rw [length_set_quadratic]
    exact hv'
  have hmemu2 := mem_nb_set_quadratic_u (set_quadratic bqm u v b).1 u v b hS hSu hSv huv
  have hSS : Valid (set_quadratic (set_quadratic bqm u v b).1 u v b).1 :=
    valid_set_quadratic _ u v b hS hSu hSv huv
  refine ⟨?_, ?_, ?_, ?_, ?_, ?_, rfl, ?_, ?_⟩
  · exact get_quadratic_of_mem _ _ _ _ (hS.sorted u) ((hmemu (v, b)).mpr (Or.inl rfl))
  · exact get_quadratic_of_mem _ _ _ _ (hS.sorted v) ((hmemv (u, b)).mpr (Or.inl rfl))
  · rw [num_interactions_set_quadratic bqm u v b h hu' hv' huv]
    by_cases hex : v ∈ keys (neighborhood bqm u)
    · rw [if_pos hex, if_pos ((get_quadratic_found_iff bqm u v (h.sorted u)).mpr hex)]
    · rw [if_neg hex,
        if_neg (fun hc => hex ((get_quadratic_found_iff bqm u v (h.sorted u)).mp hc))]
  · intro x y hxy1 hxy2
    rcases eq_or_ne x u with rfl | hxu
    · have hyv : y ≠ v := fun hc => hxy1 ⟨rfl, hc⟩
      rw [get_quadratic, get_quadratic]
      apply gqCore_congr _ _ _ (hS.sorted x) (h.sorted x)
      intro c
      rw [hmemu (y, c)]
      constructor
      · rintro (heq | hmem)
        · exact absurd (congrArg Prod.fst heq) hyv
        · exact hmem.1
      · intro hc
        exact Or.inr ⟨hc, hyv⟩
    · rcases eq_or_ne x v with rfl | hxv
      · have hyu : y ≠ u := fun hc => hxy2 ⟨rfl, hc⟩
        rw [get_quadratic, get_quadratic]
        apply gqCore_congr _ _ _ (hS.sorted x) (h.sorted x)
        intro c
        rw [hmemv (y, c)]
        constructor
        · rintro (heq | hmem)
          · exact absurd (congrArg Prod.fst heq) hyu
          · exact hmem.1
        · intro hc
          exact Or.inr ⟨hc, hyu⟩
      · rw [get_quadratic, get_quadratic, nb_set_quadratic_other bqm u v b x hxu hxv]
  · exact linear_set_quadratic bqm u v b
  · rw [num_variables, length_set_quadratic, num_variables]
  · rw [num_interactions_set_quadratic _ u v b hS hSu hSv huv,
      if_pos ((mem_keys_iff _ _).mpr ⟨b, (hmemu (v, b)).mpr (Or.inl rfl)⟩)]
  · exact get_quadratic_of_mem _ _ _ _ (hSS.sorted u) ((hmemu2 (v, b)).mpr (Or.inl rfl))

theorem C3_set_quadratic_witness :
    get_quadratic (set_quadratic sampleBQM 0 2 5).1 0 2 = (5, true) ∧
    get_quadratic (set_quadratic sampleBQM 0 2 5).1 2 0 = (5, true) ∧
    num_interactions (set_quadratic sampleBQM 0 2 5).1
      = (if (get_quadratic sampleBQM 0 2).2 = true then num_interactions sampleBQM
         else num_interactions sampleBQM + 1) ∧
    (∀ x y : Nat, ¬(x = 0 ∧ y = 2) → ¬(x = 2 ∧ y = 0) →
      get_quadratic (set_quadratic sampleBQM 0 2 5).1 x y = get_quadratic sampleBQM x y) ∧
    (∀ w, get_linear (set_quadratic sampleBQM 0 2 5).1 w = get_linear sampleBQM w) ∧
    num_variables (set_quadratic sampleBQM 0 2 5).1 = num_variables sampleBQM ∧
    (set_quadratic sampleBQM 0 2 5).2 = true ∧
    num_interactions (set_quadratic (set_quadratic sampleBQM 0 2 5).1 0 2 5).1
      = num_interactions (set_quadratic sampleBQM 0 2 5).1 ∧
    get_quadratic (set_quadratic (set_quadratic sampleBQM 0 2 5).1 0 2 5).1 0 2 = (5, true) :=
  C3_set_quadratic sampleBQM 0 2 5 (reachable_valid sampleBQM sample_reachable)
    (by decide) (by decide) (by decide)

/-- C6: `remove_interaction` returns-iff and atomicity — it returns `true`
exactly when the edge existed; on success both copies are erased (both reads
then report `(0, false)`), the interaction count drops by one and nothing
else changes; on failure the call returns the state unchanged with `false`. -/
theorem C6_remove_interaction (bqm : AdjVectorBQM) (h : Valid bqm) (u v : Nat)
    (hu : u < num_variables bqm) (hv : v < num_variables bqm) (huv : u ≠ v) :
    ((remove_interaction bqm u v).2 = true ↔ v ∈ keys (neighborhood bqm u)) ∧
    (v ∈ keys (neighborhood bqm u) →
      get_quadratic (remove_interaction bqm u v).1 u v = (0, false) ∧
      get_quadratic (remove_interaction bqm u v).1 v u = (0, false) ∧
      num_interactions (remove_interaction bqm u v).1 + 1 = num_interactions bqm ∧
      (∀ x y : Nat, ¬(x = u ∧ y = v) → ¬(x = v ∧ y = u) →
        get_quadratic (remove_interaction bqm u v).1 x y = get_quadratic bqm x y) ∧
      (∀ w, get_linear (remove_interaction bqm u v).1 w = get_linear bqm w) ∧
      num_variables (remove_interaction bqm u v).1 = num_variables bqm) ∧
    (v ∉ keys (neighborhood bqm u) → remove_interaction bqm u v = (bqm, false)) := by
  refine ⟨?_, ?_, ?_⟩
  · by_cases hex : v ∈ keys (neighborhood bqm u)
    · obtain ⟨b0, hb0⟩ := (mem_keys_iff _ _).mp hex
      rw [remove_interaction_found _ _ _ (nbFound_of_mem _ _ _ (h.sorted u) hb0)]
      simp [hex]
    · rw [remove_interaction_not_found _ _ _ (nbFound_of_not_mem _ _ (h.sorted u) hex)]
      simp [hex]
  · intro hex
    obtain ⟨b0, hb0⟩ := (mem_keys_iff _ _).mp hex
    have hR : Valid (remove_interaction bqm u v).1 := valid_remove bqm u v h
    refine ⟨?_, ?_, num_interactions_remove_found bqm u v b0 h hb0, ?_, ?_, ?_⟩
    · apply get_quadratic_of_not_mem _ _ _ (hR.sorted u)
      intro hc
      obtain ⟨c, hc2⟩ := (mem_keys_iff _ _).mp hc
      exact ((mem_nb_remove_u bqm u v b0 h hb0 (v, c)).mp hc2).2 rfl
    · apply get_quadratic_of_not_mem _ _ _ (hR.sorted v)
      intro hc
      obtain ⟨c, hc2⟩ := (mem_keys_iff _ _).mp hc
      exact ((mem_nb_remove_v bqm u v b0 h hb0 (u, c)).mp hc2).2 rfl
    · intro x y hxy1 hxy2
      rcases eq_or_ne x u with rfl | hxu
      · have hyv : y ≠ v := fun hc => hxy1 ⟨rfl, hc⟩
        rw [get_quadratic, get_quadratic]
        apply gqCore_congr _ _ _ (hR.sorted x) (h.sorted x)
        intro c
        rw [mem_nb_remove_u bqm x v b0 h hb0 (y, c)]
        constructor
        · exact fun hc => hc.1
        · exact fun hc => ⟨hc, hyv⟩
      · rcases eq_or_ne x v with rfl | hxv
        · have hyu : y ≠ u := fun hc => hxy2 ⟨rfl, hc⟩
          rw [get_quadratic, get_quadratic]
          apply gqCore_congr _ _ _ (hR.sorted x) (h.sorted x)
          intro c
          rw [mem_nb_remove_v bqm u x b0 h hb0 (y, c)]
          constructor
          · exact fun hc => hc.1
          · exact fun hc => ⟨hc, hyu⟩
        · rw [get_quadratic, get_quadratic, nb_remove_interaction_other bqm u v x hxu hxv]
    · exact linear_remove_interaction bqm u v
    · rw [num_variables, length_remove_interaction, num_variables]
  · intro hex
    exact remove_interaction_not_found _ _ _ (nbFound_of_not_mem _ _ (h.sorted u) hex)

theorem C6_remove_interaction_witness :
    ((remove_interaction sampleBQM 0 1).2 = true ↔ 1 ∈ keys (neighborhood sampleBQM 0)) ∧
    (1 ∈ keys (neighborhood sampleBQM 0) →
      get_quadratic (remove_interaction sampleBQM 0 1).1 0 1 = (0, false) ∧
      get_quadratic (remove_interaction sampleBQM 0 1).1 1 0 = (0, false) ∧
      num_interactions (remove_interaction sampleBQM 0 1).1 + 1 = num_interactions sampleBQM ∧
      (∀ x y : Nat, ¬(x = 0 ∧ y = 1) → ¬(x = 1 ∧ y = 0) →
        get_quadratic (remove_interaction sampleBQM 0 1).1 x y = get_quadratic sampleBQM x y) ∧
      (∀ w, get_linear (remove_interaction sampleBQM 0 1).1 w = get_linear sampleBQM w) ∧
      num_variables (remove_interaction sampleBQM 0 1).1 = num_variables sampleBQM) ∧
    (1 ∉ keys (neighborhood sampleBQM 0) → remove_interaction sampleBQM 0 1 = (sampleBQM, false)) :=
  C6_remove_interaction sampleBQM (reachable_valid sampleBQM sample_reachable) 0 1
    (by decide) (by decide) (by decide)

/-- C10: an explicitly set zero quadratic bias is stored and counted — on a
valid state, `set_quadratic(u, v, 0)` on an absent edge creates it (both
reads return `(0, true)` and the interaction count grows by one), unlike the
dense constructor, where a zero triangle sum creates no edge. -/
theorem C10_zero_bias_edge (bqm : AdjVectorBQM) (h : Valid bqm) (u v : Nat)
    (hu : u < num_variables bqm) (hv : v < num_variables bqm) (huv : u ≠ v)
    (hex : v ∉ keys (neighborhood bqm u)) :
    get_quadratic (set_quadratic bqm u v 0).1 u v = (0, true) ∧
    get_quadratic (set_quadratic bqm u v 0).1 v u = (0, true) ∧
    num_interactions (set_quadratic bqm u v 0).1 = num_interactions bqm + 1 ∧
    (∀ (d : Nat → Bias) (n i j : Nat), i < n → j < n → i ≠ j →
      d (i * n + j) + d (j * n + i) = 0 →
      get_quadratic (fromDense d n false) i j = (0, false)) := by
  have hS : Valid (set_quadratic bqm u v 0).1 := valid_set_quadratic bqm u v 0 h hu hv huv
  refine ⟨?_, ?_, ?_, fun d n i j hi hj hij hq => dense_zero_no_edge d n i j false hi hj hij hq⟩
  · exact get_quadratic_of_mem _ _ _ _ (hS.sorted u)
      ((mem_nb_set_quadratic_u bqm u v 0 h hu hv huv (v, 0)).mpr (Or.inl rfl))
  · exact get_quadratic_of_mem _ _ _ _ (hS.sorted v)
      ((mem_nb_set_quadratic_v bqm u v 0 h hu hv huv (u, 0)).mpr (Or.inl rfl))
  · rw [num_interactions_set_quadratic bqm u v 0 h hu hv huv, if_neg hex]

theorem C10_zero_bias_edge_witness :
    get_quadratic (set_quadratic sampleBQM 0 2 0).1 0 2 = (0, true) ∧
    get_quadratic (set_quadratic sampleBQM 0 2 0).1 2 0 = (0, true) ∧
    num_interactions (set_quadratic sampleBQM 0 2 0).1 = num_interactions sampleBQM + 1 ∧
    (∀ (d : Nat → Bias) (n i j : Nat), i < n → j < n → i ≠ j →
      d (i * n + j) + d (j * n + i) = 0 →
      get_quadratic (fromDense d n false) i j = (0, false)) :=
  C10_zero_bias_edge sampleBQM (reachable_valid sampleBQM sample_reachable) 0 2
    (by decide) (by decide) (by decide) (by decide)

/-- C4: Dense-construction round-trip — for a symmetric `n × n` row-major
array (off-diagonal `M[i][j] = M[j][i]`), constructing with
`ignore_diagonal = false` yields `num_variables = n`, `get_linear(i) = M[i][i]`,
and for `i ≠ j` `get_quadratic(i, j) = (M[i][j] + M[j][i], true)` when the
triangle sum is nonzero and `(0, false)` when it is zero. -/
theorem C4_dense_round_trip (n : Nat) (M : Nat → Bias)
    (hsym : ∀ i, i < n → ∀ j, j < n → i ≠ j → M (i * n + j) = M (j * n + i))
    (i j : Nat) (hi : i < n) (hj : j < n) (hij : i ≠ j) :
    num_variables (fromDense M n false) = n ∧
    get_linear (fromDense M n false) i = M (i * n + i) ∧
    (M (i * n + j) + M (j * n + i) ≠ 0 →
      get_quadratic (fromDense M n false) i j = (M (i * n + j) + M (j * n + i), true)) ∧
    (M (i * n + j) + M (j * n + i) = 0 →
      get_quadratic (fromDense M n false) i j = (0, false)) := by
  refine ⟨?_, ?_, fun hq => dense_nonzero_edge M n i j false hi hj hij hq,
    fun hq => dense_zero_no_edge M n i j false hi hj hij hq⟩
  · rw [num_variables, length_fromDense]
  · rw [linear_fromDense M n false i hi]
    simp only [Bool.false_eq_true, if_false]
    congr 1

/-- Symmetric 3×3 sample matrix for the dense constructor. -/
def sampleDense : Nat → Bias := fun k => [2, 3, 0, 3, -1, 4, 0, 4, 0].getD k 0

theorem C4_dense_round_trip_witness :
    (∀ i, i < 3 → ∀ j, j < 3 → i ≠ j → sampleDense (i * 3 + j) = sampleDense (j * 3 + i)) ∧
    (num_variables (fromDense sampleDense 3 false) = 3 ∧
     get_linear (fromDense sampleDense 3 false) 0 = sampleDense (0 * 3 + 0) ∧
     (sampleDense (0 * 3 + 1) + sampleDense (1 * 3 + 0) ≠ 0 →
       get_quadratic (fromDense sampleDense 3 false) 0 1
         = (sampleDense (0 * 3 + 1) + sampleDense (1 * 3 + 0), true)) ∧
     (sampleDense (0 * 3 + 1) + sampleDense (1 * 3 + 0) = 0 →
       get_quadratic (fromDense sampleDense 3 false) 0 1 = (0, false))) :=
  ⟨by decide,
   C4_dense_round_trip 3 sampleDense (by decide) 0 1 (by decide) (by decide) (by decide)⟩

end Dimod
